import Mathlib

/-!
# BytesDB storage core

A shallow embedding of the storage core of BytesDB:

* the record framing (`RecordHeader.pack`, `Record.Pack`, `BytesToRecord`) on top of
  Go's `encoding/binary` variable-length integers;
* the segmented log store of `storage/file/local_file.go` (`fileStorage`), run against an
  explicit file-system state;
* the storage manager of `storage/storage_manager.go` (`StorageManager`).

Conventions.

* Machine integers are `Nat`/`Int` with explicit reductions modulo `2 ^ 64`; a byte is a
  natural number.
* Go strings are Lean strings, measured, sliced and ordered by characters; for the ASCII
  names the store produces these are the bytes, and the order by code points is the order of
  the UTF-8 bytes.
* A function that can panic returns `Except Panic`; a Go result `(n, err)` is a pair whose
  second component is `none` for a nil error.
* State is passed explicitly: an operation takes the file system (and the manager or the
  store) and returns the new ones. Mutexes are left out: calls are sequential.
* A path is resolved element by element, from the root or from the working directory, as
  for a file system without symbolic links; a call on a path fails when an element on the way
  is missing or is a regular file. The root, and the directory that a path ending in `..`
  names, cannot be removed.
* The file system is ideal otherwise: a call never fails for permissions or space.
-/

namespace BytesDB

/-! ## Bytes and Go's `encoding/binary` varints -/

/-- Byte slices (`core.Bytes`, Go `[]byte`): one natural number per octet. -/
abbrev Bytes := List Nat

/-- Conversion `uint64(x)` of a signed integer: reduction modulo `2 ^ 64`. -/
def uint64 (x : Int) : Nat := (x % 18446744073709551616).toNat

/-- Conversion `int64(u)` of an unsigned integer: two's complement reading of the low 64 bits. -/
def int64 (u : Nat) : Int :=
  if u % 18446744073709551616 < 9223372036854775808 then ((u % 18446744073709551616 : Nat) : Int)
  else ((u % 18446744073709551616 : Nat) : Int) - 18446744073709551616

/-- Constant `binary.MaxVarintLen64`. -/
def MaxVarintLen64 : Nat := 10

/-- The loop of `binary.PutUvarint`: `for x >= 0x80 { buf[i] = byte(x) | 0x80; x >>= 7; i++ }`
followed by `buf[i] = byte(x)`. The first argument bounds the number of iterations; the loop
shifts `x` right by seven bits each round, so `x` itself is an ample bound. -/
def putUvarintLoop : Nat → Nat → Bytes
  | 0, x => [x % 256]
  | fuel + 1, x =>
    if x ≥ 0x80 then ((x % 256) ||| 0x80) :: putUvarintLoop fuel (x >>> 7)
    else [x % 256]

/-- Function `binary.PutUvarint`: the bytes written for the `uint64` value `x`
(the Go function returns their number). -/
def PutUvarint (x : Nat) : Bytes := putUvarintLoop x x

/-- Function `binary.PutVarint`: zig-zag, then `PutUvarint`.
`ux := uint64(x) << 1; if x < 0 { ux = ^ux }`. -/
def PutVarint (x : Int) : Bytes :=
  let ux := (uint64 x <<< 1) % 18446744073709551616
  let ux := if x < 0 then 18446744073709551615 - ux else ux
  PutUvarint ux

/-- The loop of `binary.Uvarint` over the remaining bytes, with the index `i`, the
accumulator `x` and the shift `s`. The result is the value and the number of bytes read
(zero: buffer too small, negative: overflow). -/
def uvarintLoop : Bytes → Nat → Nat → Nat → Nat × Int
  | [], _, _, _ => (0, 0)
  | b :: rest, i, x, s =>
    if i = MaxVarintLen64 then (0, -((i : Int) + 1))
    else if b < 0x80 then
      if i = MaxVarintLen64 - 1 ∧ b > 1 then (0, -((i : Int) + 1))
      else (x ||| ((b <<< s) % 18446744073709551616), (i : Int) + 1)
    else uvarintLoop rest (i + 1) (x ||| (((b &&& 0x7f) <<< s) % 18446744073709551616)) (s + 7)

/-- Function `binary.Uvarint`. -/
def Uvarint (buf : Bytes) : Nat × Int := uvarintLoop buf 0 0 0

/-- Function `binary.Varint`: `Uvarint`, then undo the zig-zag.
`x := int64(ux >> 1); if ux&1 != 0 { x = ^x }`. -/
def Varint (buf : Bytes) : Int × Int :=
  let r := Uvarint buf
  let x := int64 (r.1 >>> 1)
  let x := if r.1 &&& 1 ≠ 0 then -x - 1 else x
  (x, r.2)

/-! ## Record framing (package `core`) -/

/-- Record types of `core`: a live record or a tombstone. -/
inductive RecordType
  | Normal
  | Deleted
  deriving DecidableEq, Repr

/-- Modelled from the spec: the one-byte tag `uint8(h.Typ)` of a record type. The declaration
of `core.RecordType` is not among the sources; the tags follow the order of declaration. -/
def RecordType.tag : RecordType → Nat
  | .Normal => 0
  | .Deleted => 1

/-- Modelled from the spec: the record type of a tag byte, none for an unrecognised tag. -/
def RecordType.ofTag (b : Nat) : Option RecordType :=
  if b = RecordType.Normal.tag then some .Normal
  else if b = RecordType.Deleted.tag then some .Deleted
  else none

/-- Header of a record, as built in `record_header_test.go`:
`RecordHeader{uint32(0), Normal, key.Size(), value.Size()}`. -/
structure RecordHeader where
  Crc : Nat
  Typ : RecordType
  KeySize : Int
  ValueSize : Int
  deriving DecidableEq, Repr

/-- A record of `core`: `Record{Key, Value, Type}`. -/
structure Record where
  Key : Bytes
  Value : Bytes
  Typ : RecordType
  deriving DecidableEq, Repr

/-- Modelled from the spec: `RecordHeader.pack` (package `core`, not among the sources).
Four bytes of reserved checksum (zero), one byte of type tag, then the key size and the value
size, each as a variable-length signed integer. -/
def RecordHeader.pack (h : RecordHeader) : Bytes :=
  [0, 0, 0, 0] ++ [h.Typ.tag] ++ PutVarint h.KeySize ++ PutVarint h.ValueSize

/-- Modelled from the spec: `Record.Pack` (package `core`, not among the sources).
The packed header followed by the raw key bytes and the raw value bytes. -/
def Record.Pack (r : Record) : Bytes :=
  RecordHeader.pack ⟨0, r.Typ, (r.Key.length : Int), (r.Value.length : Int)⟩ ++ r.Key ++ r.Value

/-- Errors of the record decoder. -/
inductive CodecError
  | FramingError
  deriving DecidableEq, Repr

/-- Modelled from the spec: `core.BytesToRecord` (not among the sources), the inverse of
`Record.Pack`. It skips the reserved checksum, reads the type tag and the two sizes, and
signals a framing error for an unrecognised tag, an undecodable size, or fewer payload bytes
than the header declares. -/
def BytesToRecord (bs : Bytes) : Except CodecError Record :=
  if bs.length < 5 then .error .FramingError
  else
    match RecordType.ofTag (bs.getD 4 0) with
    | none => .error .FramingError
    | some typ =>
      let k := Varint (bs.drop 5)
      if k.2 ≤ 0 ∨ k.1 < 0 then .error .FramingError
      else
        let v := Varint (bs.drop (5 + k.2.toNat))
        if v.2 ≤ 0 ∨ v.1 < 0 then .error .FramingError
        else
          let body := bs.drop (5 + k.2.toNat + v.2.toNat)
          if body.length < k.1.toNat + v.1.toNat then .error .FramingError
          else .ok ⟨body.take k.1.toNat, (body.drop k.1.toNat).take v.1.toNat, typ⟩



/-! ## Go runtime errors and panics -/

/-- Error values returned by the Go library calls the store makes. -/
inductive GoError
  | ErrClosed
  | ErrNegativeOffset
  | EOF
  | ErrNotExist
  | ErrNotDir
  | ErrIsDir
  | ErrBadFd
  | ErrInvalid
  | ErrBusy
  | ErrSyntax
  | ErrRange
  deriving DecidableEq, Repr

/-- A panic: `panic(err)`, `panic("text")`, a Go runtime error, or a framing error raised
by the record decoder. -/
inductive Panic
  | error (e : GoError)
  | message (s : String)
  | runtime (s : String)
  | framing (e : CodecError)
  deriving DecidableEq, Repr

deriving instance DecidableEq for Except

/-! ## Strings: `path`, `strconv`, `fmt`, `sort` -/

/-- Split a path at every slash. -/
def splitSlash : List Char → List (List Char)
  | [] => [[]]
  | c :: cs =>
    match splitSlash cs with
    | [] => [[]]
    | w :: ws => if c = '/' then [] :: w :: ws else (c :: w) :: ws

/-- One element of `path.Clean`, on the stack of the elements kept so far (innermost first):
empty and `.` elements are dropped, `..` removes the element before it, or is kept in front
of a relative path. -/
def cleanStep (rooted : Bool) (stack : List (List Char)) (comp : List Char) : List (List Char) :=
  if comp = [] ∨ comp = ['.'] then stack
  else if comp = ['.', '.'] then
    match stack with
    | [] => if rooted then [] else [comp]
    | top :: below => if top = ['.', '.'] then comp :: stack else below
  else comp :: stack

/-- Join path elements with single slashes. -/
def joinSlash : List (List Char) → List Char
  | [] => []
  | [w] => w
  | w :: ws => w ++ '/' :: joinSlash ws

/-- Function `path.Clean`: the shortest path equivalent to the argument by purely lexical
processing. -/
def pathClean (p : String) : String :=
  if p.data = [] then "."
  else
    let rooted := p.data.head? = some '/'
    let body := joinSlash ((splitSlash p.data).foldl (cleanStep rooted) []).reverse
    if rooted then ⟨'/' :: body⟩
    else if body = [] then "."
    else ⟨body⟩

/-- Function `path.Join`: the non-empty elements joined with slashes, then cleaned;
the empty string when every element is empty. -/
def pathJoin (elem : List String) : String :=
  let parts := (elem.filter (fun e => e.data ≠ [])).map String.data
  if parts = [] then "" else pathClean ⟨joinSlash parts⟩

/-- The loop of `strconv.ParseUint` in base 10 for 64 bits: digits only, with the
overflow checks of the library. -/
def parseUintLoop : List Char → Nat → Except GoError Nat
  | [], n => .ok n
  | c :: cs, n =>
    if 48 ≤ c.toNat ∧ c.toNat ≤ 57 then
      if n ≥ 18446744073709551615 / 10 + 1 then .error .ErrRange
      else
        let n1 := n * 10 + (c.toNat - 48)
        if n1 > 18446744073709551615 then .error .ErrRange
        else parseUintLoop cs n1
    else .error .ErrSyntax

/-- Function `strconv.ParseInt(s, 10, 64)`: an optional sign, then decimal digits. -/
def ParseInt (s : String) : Except GoError Int :=
  match s.data with
  | [] => .error .ErrSyntax
  | c :: cs =>
    let neg := c = '-'
    let digits := if c = '+' ∨ c = '-' then cs else c :: cs
    if digits = [] then .error .ErrSyntax
    else
      match parseUintLoop digits 0 with
      | .error e => .error e
      | .ok un =>
        if ¬ neg ∧ un ≥ 9223372036854775808 then .error .ErrRange
        else if neg ∧ un > 9223372036854775808 then .error .ErrRange
        else .ok (if neg then -(un : Int) else (un : Int))

/-- Decimal digits of a natural number, most significant first; the first argument bounds
the number of digits. -/
def decimalLoop : Nat → Nat → List Char → List Char
  | 0, _, acc => acc
  | fuel + 1, n, acc =>
    if n < 10 then Char.ofNat (48 + n) :: acc
    else decimalLoop fuel (n / 10) (Char.ofNat (48 + n % 10) :: acc)

/-- Format `fmt.Sprintf("%10d.data", n)`: the decimal number right-justified with spaces in
a field of width ten, followed by the suffix `.data`. -/
def segmentFileName (n : Int) : String :=
  let digits := decimalLoop (n.natAbs + 1) n.natAbs []
  let body := if n < 0 then '-' :: digits else digits
  ⟨List.replicate (10 - body.length) ' ' ++ body ++ ".data".data⟩

/-- Lexicographic order of Go strings, as used by `sort.Strings`. -/
def lexLE : List Char → List Char → Bool
  | [], _ => true
  | _ :: _, [] => false
  | a :: as, b :: bs =>
    if a.toNat < b.toNat then true
    else if b.toNat < a.toNat then false
    else lexLE as bs

/-- Insertion of a string into a sorted list of strings. -/
def insertString (s : String) : List String → List String
  | [] => [s]
  | t :: ts => if lexLE s.data t.data then s :: t :: ts else t :: insertString s ts

/-- Function `sort.Strings`: the strings in increasing lexicographic order. -/
def sortStrings : List String → List String
  | [] => []
  | s :: ss => insertString s (sortStrings ss)

/-! ## File system state and `os` -/

/-- The file system as explicit state. A path is resolved to the list of its elements from
the root: `cwd` is the working directory, `dirs` the directories other than the root,
`files` the regular files with their inodes, `inodes` the contents of every inode. An inode
outlives the removal of its name, as it does for a file that is still open. -/
structure FileSystem where
  cwd : List String
  dirs : List (List String)
  files : List (List String × Nat)
  inodes : List Bytes
  deriving DecidableEq, Repr

/-- An open file (`*os.File`): the name it was opened with, its inode, whether it has
been closed. -/
structure OsFile where
  name : String
  ino : Nat
  closed : Bool
  deriving DecidableEq, Repr

/-- One entry of a directory listing. -/
structure DirEntry where
  Name : String
  IsDir : Bool
  deriving DecidableEq, Repr

/-- What a path leads to: a directory, a regular file, nothing (`ENOENT`), or nothing
because an element on the way is not a directory (`ENOTDIR`). -/
inductive PathStatus
  | dir
  | file (ino : Nat)
  | notExist
  | notDir
  deriving DecidableEq, Repr

/-- One element of a path during resolution: empty elements and `.` stay in place, `..`
goes to the parent (the root is its own parent), a name goes one level down. -/
def resolveStep (stack : List String) (comp : List Char) : List String :=
  if comp = [] ∨ comp = ['.'] then stack
  else if comp = ['.', '.'] then stack.dropLast
  else stack ++ [⟨comp⟩]

/-- The elements, from the root, of the place a path names: a path that starts with a slash
is resolved from the root, any other from the working directory. -/
def FileSystem.resolve (fs : FileSystem) (p : String) : List String :=
  (splitSlash p.data).foldl resolveStep (if p.data.head? = some '/' then [] else fs.cwd)

/-- Walk from the directory `pre` along the elements that remain. -/
def FileSystem.walk (fs : FileSystem) : List String → List String → PathStatus
  | _, [] => .dir
  | pre, c :: cs =>
    if pre ++ [c] ∈ fs.dirs then fs.walk (pre ++ [c]) cs
    else
      match fs.files.lookup (pre ++ [c]) with
      | some ino => if cs = [] then .file ino else .notDir
      | none => .notExist

/-- What the place with the given elements is, walking from the root. -/
def FileSystem.status (fs : FileSystem) (place : List String) : PathStatus := fs.walk [] place

/-- Function `os.Stat`, reduced to what the path leads to. The empty path names nothing. -/
def FileSystem.Stat (fs : FileSystem) (p : String) : PathStatus :=
  if p.data = [] then .notExist else fs.status (fs.resolve p)

/-- Whether the path names a directory or a regular file (`os.Stat` succeeds). -/
def FileSystem.pathExists (fs : FileSystem) (p : String) : Bool :=
  match fs.Stat p with
  | .dir => true
  | .file _ => true
  | _ => false

/-- The loop of `os.MkdirAll` from the directory `pre`: every missing directory on the way
is made; a regular file on the way is an error. -/
def FileSystem.mkdirWalk (fs : FileSystem) : List String → List String → Except GoError FileSystem
  | _, [] => .ok fs
  | pre, c :: cs =>
    if pre ++ [c] ∈ fs.dirs then fs.mkdirWalk (pre ++ [c]) cs
    else if (fs.files.lookup (pre ++ [c])).isSome then .error .ErrNotDir
    else FileSystem.mkdirWalk { fs with dirs := (pre ++ [c]) :: fs.dirs } (pre ++ [c]) cs

/-- Function `os.MkdirAll`: makes the directory and every missing parent. It fails for the
empty path, for a path relative to a working directory that no longer exists, and when a
regular file is on the way. -/
def FileSystem.MkdirAll (fs : FileSystem) (p : String) : Except GoError FileSystem :=
  if p.data = [] then .error .ErrNotExist
  else if p.data.head? ≠ some '/' ∧ fs.status fs.cwd ≠ .dir then .error .ErrNotExist
  else fs.mkdirWalk [] (fs.resolve p)

/-- The name of the place `key` inside the directory `place` when it is directly in it. -/
def childName (place key : List String) : Option String :=
  if key ≠ [] ∧ key.dropLast = place then key.getLast? else none

/-- Function `os.ReadDir`: the entries of a directory sorted by name. -/
def FileSystem.ReadDir (fs : FileSystem) (p : String) : Except GoError (List DirEntry) :=
  match fs.Stat p with
  | .dir =>
    let place := fs.resolve p
    let names := ((fs.dirs.filterMap (childName place))
      ++ fs.files.filterMap (fun f => childName place f.1)).eraseDups
    .ok ((sortStrings names).map (fun n => ⟨n, decide (place ++ [n] ∈ fs.dirs)⟩))
  | .notExist => .error .ErrNotExist
  | _ => .error .ErrNotDir

/-- Function `os.OpenFile(path, O_CREATE|O_RDWR|O_APPEND, 0755)`: opens the regular file at the
path, creating it empty when its directory exists and it does not. -/
def FileSystem.OpenFile (fs : FileSystem) (p : String) : Except GoError (OsFile × FileSystem) :=
  match fs.Stat p with
  | .dir => .error .ErrIsDir
  | .notDir => .error .ErrNotDir
  | .file ino => if ino < fs.inodes.length then .ok (⟨p, ino, false⟩, fs) else .error .ErrBadFd
  | .notExist =>
    if p.data ≠ [] ∧ fs.resolve p ≠ [] ∧ fs.status (fs.resolve p).dropLast = .dir then
      .ok (⟨p, fs.inodes.length, false⟩,
        { fs with files := (fs.resolve p, fs.inodes.length) :: fs.files,
                  inodes := fs.inodes ++ [[]] })
    else .error .ErrNotExist

/-- Whether the last element of the path, as written, is `e`. -/
def endsWithElem (p : String) (e : List Char) : Bool :=
  p.data == e || ('/' :: e).isSuffixOf p.data

/-- Function `os.RemoveAll`: removes the place the path names and everything below it.
Nothing happens for the empty path; a path whose last element is `.` is refused; the root
and a path whose last element is `..` lose what is below them and stay, with an error. The
error is nil when the path does not exist. The inodes stay: a file that is still open keeps
its contents after its name is gone. -/
def FileSystem.RemoveAll (fs : FileSystem) (p : String) : FileSystem × Option GoError :=
  if p.data = [] then (fs, none)
  else if endsWithElem p ['.'] then (fs, some .ErrInvalid)
  else
    let place := fs.resolve p
    let stays : Bool := decide (place = []) || endsWithElem p ['.', '.']
    let keep : List String → Bool := fun k => !(place.isPrefixOf k) || (stays && k == place)
    ({ fs with dirs := fs.dirs.filter keep, files := fs.files.filter (fun f => keep f.1) },
      if stays then some .ErrBusy
      else
        match fs.status place.dropLast with
        | .dir => none
        | .notExist => none
        | _ => some .ErrNotDir)

/-- Method `(*os.File).Stat` followed by `Size()`: the length of the file's contents. -/
def OsFile.StatSize (f : OsFile) (fs : FileSystem) : Int × Option GoError :=
  if f.closed then (0, some .ErrClosed)
  else
    match fs.inodes[f.ino]? with
    | none => (0, some .ErrBadFd)
    | some data => ((data.length : Int), none)

/-- Method `(*os.File).ReadAt`: reads `len(b)` bytes at the offset. A negative offset is an
error; otherwise an empty buffer reads nothing and reports no error; otherwise a closed file
is an error; otherwise `io.EOF` is reported together with the bytes read when fewer than
`len(b)` bytes are available. The result is the buffer afterwards, the number of bytes read
and the error. -/
def OsFile.ReadAt (f : OsFile) (fs : FileSystem) (b : Bytes) (off : Int) :
    Bytes × Int × Option GoError :=
  if off < 0 then (b, 0, some .ErrNegativeOffset)
  else if b.length = 0 then (b, 0, none)
  else if f.closed then (b, 0, some .ErrClosed)
  else
    match fs.inodes[f.ino]? with
    | none => (b, 0, some .ErrBadFd)
    | some data =>
      let got := (data.drop off.toNat).take b.length
      (got ++ b.drop got.length, (got.length : Int),
        if got.length < b.length then some .EOF else none)

/-- Method `(*os.File).Write` on a file opened in append mode: the bytes go to the end of
the file. -/
def OsFile.Write (f : OsFile) (fs : FileSystem) (b : Bytes) :
    (Int × Option GoError) × FileSystem :=
  if f.closed then ((0, some .ErrClosed), fs)
  else
    match fs.inodes[f.ino]? with
    | none => ((0, some .ErrBadFd), fs)
    | some data => (((b.length : Int), none), { fs with inodes := fs.inodes.set f.ino (data ++ b) })

/-- Method `(*os.File).Sync`. -/
def OsFile.Sync (f : OsFile) : Option GoError :=
  if f.closed then some .ErrClosed else none

/-- Method `(*os.File).Close`: the file afterwards and the error. -/
def OsFile.Close (f : OsFile) : OsFile × Option GoError :=
  if f.closed then (f, some .ErrClosed) else ({ f with closed := true }, none)

/-! ## The segmented log store (`storage/file/local_file.go`) -/

/-- The store of one table: `fileStorage` without its mutex. -/
structure fileStorage where
  activeFile : OsFile
  oldFiles : List String
  rootPath : String
  schema : String
  tableName : String
  maxSize : Int
  deriving DecidableEq, Repr

/-- Function `NewLocalFileStorage`: makes the table directory when it does not exist, lists
it, sorts the names of its regular files, and opens the last of them, or the segment
numbered zero when there is none, as the active file. -/
def NewLocalFileStorage (fs : FileSystem) (rootPath schema table : String) :
    Except Panic (fileStorage × FileSystem) :=
  let dir := pathJoin [rootPath, schema, table]
  let made : Except Panic FileSystem :=
    match fs.Stat dir with
    | .notExist =>
      match fs.MkdirAll dir with
      | .error e => .error (.error e)
      | .ok fs1 => .ok fs1
    | _ => .ok fs
  match made with
  | .error p => .error p
  | .ok fs1 =>
    match fs1.ReadDir dir with
    | .error e => .error (.error e)
    | .ok entries =>
      let fileNames := sortStrings ((entries.filter (fun e => ¬ e.IsDir)).map DirEntry.Name)
      let activePath :=
        if fileNames.length = 0 then dir ++ "/" ++ segmentFileName 0
        else dir ++ "/" ++ fileNames.getLastD ""
      match fs1.OpenFile activePath with
      | .error e => .error (.error e)
      | .ok (activeFile, fs2) =>
        .ok (⟨activeFile, fileNames, rootPath, schema, table, 1024 * 1024⟩, fs2)

/-- Method `fileStorage.Close`. -/
def fileStorage.Close (fio : fileStorage) : fileStorage × Option GoError :=
  let r := fio.activeFile.Close
  ({ fio with activeFile := r.1 }, r.2)

/-- Method `fileStorage.Flush`. -/
def fileStorage.Flush (fio : fileStorage) : Option GoError := fio.activeFile.Sync

/-- Method `fileStorage.Size`: the length of the active file only. -/
def fileStorage.Size (fio : fileStorage) (fs : FileSystem) : Int × Option GoError :=
  match fio.activeFile.StatSize fs with
  | (_, some e) => (0, some e)
  | (n, none) => (n, none)

/-- Method `fileStorage.createAndResetActiveFile`: closes the active file, appends its name
to `oldFiles`, parses the name without its last five bytes as a decimal number, and opens the
segment of that number in the table directory as the new active file. -/
def fileStorage.createAndResetActiveFile (fio : fileStorage) (fs : FileSystem) :
    Except Panic (fileStorage × FileSystem) :=
  let old := fio.activeFile.name
  match fio.Close with
  | (_, some e) => .error (.error e)
  | (fio1, none) =>
    let fio2 := { fio1 with oldFiles := fio1.oldFiles ++ [old] }
    if old.data.length < 5 then .error (.runtime "slice bounds out of range")
    else
      match ParseInt ⟨old.data.take (old.data.length - 5)⟩ with
      | .error e => .error (.error e)
      | .ok next =>
        let activePath :=
          pathJoin [fio2.rootPath, fio2.schema, fio2.tableName, segmentFileName next]
        match fs.OpenFile activePath with
        | .error e => .error (.error e)
        | .ok (activeFile, fs1) => .ok ({ fio2 with activeFile := activeFile }, fs1)

/-- Method `fileStorage.Read`: a positional read of the active file. The result is the
buffer afterwards, the number of bytes read and the error. -/
def fileStorage.Read (fio : fileStorage) (fs : FileSystem) (buf : Bytes) (offset : Int) :
    Bytes × Int × Option GoError :=
  fio.activeFile.ReadAt fs buf offset

/-- Method `fileStorage.Write`: when the active file would grow beyond `maxSize`, flushes
twice and replaces the active file; then appends the buffer to the active file. -/
def fileStorage.Write (fio : fileStorage) (fs : FileSystem) (buf : Bytes) :
    Except Panic ((Int × Option GoError) × fileStorage × FileSystem) :=
  match fio.Size fs with
  | (_, some e) => .error (.error e)
  | (size, none) =>
    let rotated : Except Panic (fileStorage × FileSystem) :=
      if size + (buf.length : Int) > fio.maxSize then
        match fio.Flush with
        | some e => .error (.error e)
        | none =>
          match fio.Flush with
          | some e => .error (.error e)
          | none => fio.createAndResetActiveFile fs
      else .ok (fio, fs)
    match rotated with
    | .error p => .error p
    | .ok (fio1, fs1) =>
      let w := fio1.activeFile.Write fs1 buf
      .ok (w.1, fio1, w.2)

/-- Method `fileStorage.RemoveAll`: removes the table directory. -/
def fileStorage.RemoveAll (fio : fileStorage) (fs : FileSystem) : FileSystem × Option GoError :=
  fs.RemoveAll (pathJoin [fio.rootPath, fio.schema, fio.tableName])

/-- A store whose active file is open on an existing inode. -/
def fileStorage.Usable (fio : fileStorage) (fs : FileSystem) : Prop :=
  fio.activeFile.closed = false ∧ fio.activeFile.ino < fs.inodes.length

instance (fio : fileStorage) (fs : FileSystem) : Decidable (fio.Usable fs) :=
  inferInstanceAs (Decidable (_ ∧ _))

/-- The contents of the active file of a store. -/
def fileStorage.contents (fio : fileStorage) (fs : FileSystem) : Bytes :=
  fs.inodes[fio.activeFile.ino]?.getD []

/-! ## The storage manager (`storage/storage_manager.go`) -/

/-- The identity of a table (`core.Session`). -/
structure Session where
  Schema : String
  Table : String
  deriving DecidableEq, Repr

/-- The address of a packed record (`core.RecordPosition`). -/
structure RecordPosition where
  Position : Int
  Size : Int
  deriving DecidableEq, Repr

/-- Constant `Local_File`, the only storage type. -/
def Local_File : Nat := 0

/-- Modelled from the spec: the configuration `config.DBConfig` (not among the sources),
reduced to the root storage path and the storage backend identifier. -/
structure DBConfig where
  RootPath : String
  StorageType : String
  deriving DecidableEq, Repr

/-- The manager: `StorageManager` without its mutex; `options` reduced to its root path. -/
structure StorageManager where
  storages : List (Session × fileStorage)
  rootPath : String
  typ : Nat
  deriving DecidableEq, Repr

/-- Function `resolveStorageType`. -/
def resolveStorageType (typ : String) : Except Panic Nat :=
  if typ = "" then .ok Local_File
  else if typ = "local_file" then .ok Local_File
  else .error (.message "unknown storage type")

/-- Function `NewStorageManager`; `FromDbOptions` (not among the sources) is passed in. -/
def NewStorageManager (FromDbOptions : DBConfig → String) (cfg : DBConfig) :
    Except Panic StorageManager :=
  let options := FromDbOptions cfg
  match resolveStorageType cfg.StorageType with
  | .error p => .error p
  | .ok typ => .ok ⟨[], options, typ⟩

/-- The store the map holds for a session (`sm.storages[sid]`). -/
def StorageManager.lookup (sm : StorageManager) (sid : Session) : Option fileStorage :=
  sm.storages.lookup sid

/-- The map with the store of a session set (`sm.storages[sid] = storage`; also used to
record the state of a store after a call on it). -/
def StorageManager.store (sm : StorageManager) (sid : Session) (st : fileStorage) :
    StorageManager :=
  { sm with storages := (sid, st) :: sm.storages.filter (fun p => p.1 ≠ sid) }

/-- Method `StorageManager.initializeStorage`. -/
def StorageManager.initializeStorage (sm : StorageManager) (fs : FileSystem)
    (storageType : Nat) (session : Session) : Except Panic (StorageManager × FileSystem) :=
  if (sm.lookup session).isSome then .ok (sm, fs)
  else if storageType = Local_File then
    match NewLocalFileStorage fs sm.rootPath session.Schema session.Table with
    | .error p => .error p
    | .ok (storage, fs1) => .ok (sm.store session storage, fs1)
  else .error (.message ("storage type not supported: " ++ String.mk [Char.ofNat storageType]))

/-- Method `StorageManager.resolveStorage`: the store of the session, created on first use. -/
def StorageManager.resolveStorage (sm : StorageManager) (fs : FileSystem) (sid : Session) :
    Except Panic (fileStorage × StorageManager × FileSystem) :=
  let init : Except Panic (StorageManager × FileSystem) :=
    if ¬ (sm.lookup sid).isSome then sm.initializeStorage fs sm.typ sid else .ok (sm, fs)
  match init with
  | .error p => .error p
  | .ok (sm1, fs1) =>
    match sm1.lookup sid with
    | none => .error (.runtime "nil pointer dereference")
    | some storage => .ok (storage, sm1, fs1)

/-- Method `StorageManager.Read`. -/
def StorageManager.Read (sm : StorageManager) (fs : FileSystem) (session : Session)
    (position : RecordPosition) : Except Panic (Record × StorageManager × FileSystem) :=
  match sm.resolveStorage fs session with
  | .error p => .error p
  | .ok (storage, sm1, fs1) =>
    if position.Size < 0 then .error (.runtime "makeslice: len out of range")
    else
      let r := storage.Read fs1 (List.replicate position.Size.toNat 0) position.Position
      match r.2.2 with
      | some e => .error (.error e)
      | none =>
        match BytesToRecord r.1 with
        | .error e => .error (.framing e)
        | .ok record => .ok (record, sm1, fs1)

/-- Method `StorageManager.Write`: packs the record, appends it to the store of the
session, and derives the position from the size of the store after the write. -/
def StorageManager.Write (sm : StorageManager) (fs : FileSystem) (session : Session)
    (record : Record) : Except Panic (RecordPosition × StorageManager × FileSystem) :=
  match sm.resolveStorage fs session with
  | .error p => .error p
  | .ok (storage, sm1, fs1) =>
    match storage.Write fs1 record.Pack with
    | .error p => .error p
    | .ok ((_, some e), _, _) => .error (.error e)
    | .ok ((write, none), storage1, fs2) =>
      let sz := (storage1.Size fs2).1
      .ok (⟨sz - write, write⟩, sm1.store session storage1, fs2)

/-- Method `StorageManager.Delete`: writes a tombstone for the key. -/
def StorageManager.Delete (sm : StorageManager) (fs : FileSystem) (session : Session)
    (key : Bytes) : Except Panic (RecordPosition × StorageManager × FileSystem) :=
  sm.Write fs session ⟨key, [], .Deleted⟩

/-- Method `StorageManager.RemoveAllData`; the error of `RemoveAll` is dropped. -/
def StorageManager.RemoveAllData (sm : StorageManager) (fs : FileSystem) (sid : Session) :
    Except Panic (StorageManager × FileSystem) :=
  match sm.resolveStorage fs sid with
  | .error p => .error p
  | .ok (storage, sm1, fs1) => .ok (sm1, (storage.RemoveAll fs1).1)

/-- Method `StorageManager.Size`. -/
def StorageManager.Size (sm : StorageManager) (fs : FileSystem) (session : Session) :
    Except Panic ((Int × Option GoError) × StorageManager × FileSystem) :=
  match sm.resolveStorage fs session with
  | .error p => .error p
  | .ok (storage, sm1, fs1) => .ok (storage.Size fs1, sm1, fs1)

/-- Records written one after another with `StorageManager.Write`: the positions returned,
in order, and the final state. -/
def StorageManager.writeAll (sm : StorageManager) (fs : FileSystem) (session : Session) :
    List Record → Except Panic (List RecordPosition × StorageManager × FileSystem)
  | [] => .ok ([], sm, fs)
  | r :: rs =>
    match sm.Write fs session r with
    | .error p => .error p
    | .ok (pos, sm1, fs1) =>
      match StorageManager.writeAll sm1 fs1 session rs with
      | .error p => .error p
      | .ok (ps, sm2, fs2) => .ok (pos :: ps, sm2, fs2)

/-- A position from which the packed record can be read back from the active file of the
store in the current state. -/
def Readable (st : fileStorage) (fs : FileSystem) (r : Record) (p : RecordPosition) : Prop :=
  0 ≤ p.Position ∧ p.Size = (r.Pack.length : Int) ∧
    p.Position.toNat + r.Pack.length ≤ (st.contents fs).length ∧
    ((st.contents fs).drop p.Position.toNat).take r.Pack.length = r.Pack

instance (st : fileStorage) (fs : FileSystem) (r : Record) (p : RecordPosition) :
    Decidable (Readable st fs r p) :=
  inferInstanceAs (Decidable (_ ∧ _))

/-- The directory of a table: `<rootPath>/<schema>/<table>`. -/
def StorageManager.tableDir (sm : StorageManager) (sid : Session) : String :=
  pathJoin [sm.rootPath, sid.Schema, sid.Table]

/-- A directory path that `os.RemoveAll` can remove and `os.MkdirAll` can make again: it is
not empty, its last element is neither `.` nor `..`, and it names neither the working
directory nor one of its ancestors (the root is one). -/
def FileSystem.Removable (fs : FileSystem) (p : String) : Prop :=
  p.data ≠ [] ∧ endsWithElem p ['.'] = false ∧ endsWithElem p ['.', '.'] = false ∧
    (fs.resolve p).isPrefixOf fs.cwd = false

instance (fs : FileSystem) (p : String) : Decidable (fs.Removable p) :=
  inferInstanceAs (Decidable (_ ∧ _))

/-- No regular file is at an ancestor of the place. -/
def FileSystem.NoFileAbove (fs : FileSystem) (place : List String) : Prop :=
  ∀ f ∈ fs.files, f.1.isPrefixOf place = true → f.1 = place

instance (fs : FileSystem) (place : List String) : Decidable (fs.NoFileAbove place) :=
  inferInstanceAs (Decidable (∀ f ∈ fs.files, _))

/-- Nothing in the file system is at the place or below it. -/
def FileSystem.Clear (fs : FileSystem) (place : List String) : Prop :=
  (∀ d ∈ fs.dirs, place.isPrefixOf d = false) ∧
  (∀ f ∈ fs.files, place.isPrefixOf f.1 = false)

instance (fs : FileSystem) (place : List String) : Decidable (fs.Clear place) :=
  inferInstanceAs (Decidable (_ ∧ _))

/-! ## Concrete states -/

/-- A file system with no directory but the root, which is the working directory, and no
file. -/
def emptyFs : FileSystem := ⟨[], [], [], []⟩

/-- The table `s.t`. -/
def demoSession : Session := ⟨"s", "t"⟩

/-- A manager rooted at `/tmp/db` that has not resolved any store yet. -/
def demoManager : StorageManager := ⟨[], "/tmp/db", Local_File⟩

/-- The store `NewLocalFileStorage` makes for the table `s.t` under `/tmp/db` in the empty
file system. -/
def demoStore : fileStorage :=
  ⟨⟨"/tmp/db/s/t/         0.data", 0, false⟩, [], "/tmp/db", "s", "t", 1024 * 1024⟩

/-- The file system after `NewLocalFileStorage` ran for the table `s.t` under `/tmp/db` in
the empty file system. -/
def demoFs : FileSystem :=
  ⟨[], [["tmp", "db", "s", "t"], ["tmp", "db", "s"], ["tmp", "db"], ["tmp"]],
    [(["tmp", "db", "s", "t", "         0.data"], 0)], [[]]⟩

/-- A file system whose table directory `/tmp/db/s/t` holds the segments 0 and 1. -/
def twoSegmentFs : FileSystem :=
  ⟨[], [["tmp", "db", "s", "t"], ["tmp", "db", "s"], ["tmp", "db"], ["tmp"]],
    [(["tmp", "db", "s", "t", "         0.data"], 0),
      (["tmp", "db", "s", "t", "         1.data"], 1)],
    [[1, 2, 3], [4]]⟩

/-- The record with key "hi", value "你" and type Normal. -/
def demoRecord : Record := ⟨[104, 105], [228, 189, 160], .Normal⟩

/-- The file system after the table directory of `demoFs` was removed: its parents are
left, no file has a name, the inode of the segment that is still open remains. -/
def removedFs : FileSystem :=
  ⟨[], [["tmp", "db", "s"], ["tmp", "db"], ["tmp"]], [], [[]]⟩
set_option maxRecDepth 100000 in
theorem byte_or_and (y : Nat) (h : y < 256) : (y ||| 128) &&& 127 = y % 128 ∧ 128 ≤ (y ||| 128) := by
  revert y
  decide

theorem uvarintLoop_putUvarintLoop (fuel : Nat) :
    ∀ (x i acc : Nat) (rest : Bytes), x ≤ fuel → acc < 2 ^ (7 * i) →
      acc + x * 2 ^ (7 * i) < 2 ^ 64 → i ≤ 9 →
      uvarintLoop (putUvarintLoop fuel x ++ rest) i acc (7 * i)
        = (acc + x * 2 ^ (7 * i), (i : Int) + (putUvarintLoop fuel x).length) := by
  induction fuel with
  | zero =>
    intro x i acc rest hx hacc hb hi
    have hx0 : x = 0 := by omega
    subst hx0
    have hi10 : ¬ i = MaxVarintLen64 := by simp [MaxVarintLen64]; omega
    simp [putUvarintLoop, uvarintLoop, hi10]
  | succ fuel ih =>
    intro x i acc rest hx hacc hb hi
    have hi10 : ¬ i = MaxVarintLen64 := by simp [MaxVarintLen64]; omega
    have hP : 0 < 2 ^ (7 * i) := Nat.two_pow_pos _
    by_cases hx128 : x ≥ 0x80
    · -- continuation byte
      have hbyte0 := byte_or_and (x % 256) (Nat.mod_lt _ (by norm_num))
      have hmm : x % 256 % 128 = x % 128 := Nat.mod_mod_of_dvd x (by norm_num)
      have hbyte : ((x % 256) ||| 128) &&& 127 = x % 128 := by rw [hbyte0.1, hmm]
      have hnlt : ¬ ((x % 256) ||| 128) < 128 := Nat.not_lt.2 hbyte0.2
      have hr127 : (x % 128 + 1) * 2 ^ (7 * i) ≤ 128 * 2 ^ (7 * i) :=
        Nat.mul_le_mul_right _ (Nat.mod_lt _ (by norm_num))
      rw [Nat.add_mul, Nat.one_mul] at hr127
      have hqlt : x / 128 < x := Nat.div_lt_self (by omega) (by norm_num)
      have hdm := Nat.div_add_mod x 128
      have hrP : (x % 128) * 2 ^ (7 * i) < 128 * 2 ^ (7 * i) :=
        Nat.mul_lt_mul_of_pos_right (Nat.mod_lt _ (by norm_num)) hP
      have hxP : x * 2 ^ (7 * i) = 128 * 2 ^ (7 * i) * (x / 128) + (x % 128) * 2 ^ (7 * i) := by
        conv_lhs => rw [← hdm]
        ring
      have h128P : 128 * 2 ^ (7 * i) ≤ x * 2 ^ (7 * i) := Nat.mul_le_mul_right _ hx128
      have hpow : 2 ^ (7 * (i + 1)) = 128 * 2 ^ (7 * i) := by
        rw [show 7 * (i + 1) = 7 + 7 * i by ring, pow_add]; norm_num
      have hi8 : i ≤ 8 := by
        have hlt : 2 ^ (7 * (i + 1)) < 2 ^ 64 := by rw [hpow]; omega
        have := (Nat.pow_lt_pow_iff_right (by norm_num : 1 < 2)).1 hlt
        omega
      have hq : 0 ≤ 128 * 2 ^ (7 * i) * (x / 128) := Nat.zero_le _
      have hmod : ((x % 128) <<< (7 * i)) % 18446744073709551616 = (x % 128) * 2 ^ (7 * i) := by
        rw [Nat.shiftLeft_eq]
        apply Nat.mod_eq_of_lt
        norm_num at hb ⊢
        omega
      have hor : acc ||| (x % 128) * 2 ^ (7 * i) = acc + (x % 128) * 2 ^ (7 * i) := by
        rw [Nat.or_comm, Nat.mul_comm, ← Nat.mul_add_lt_is_or hacc, Nat.add_comm]
      have hrec := ih (x / 128) (i + 1) (acc + (x % 128) * 2 ^ (7 * i)) rest
        (by omega) (by rw [hpow]; omega) (by rw [hpow]; rw [Nat.mul_comm (x / 128)]; omega) (by omega)
      simp only [putUvarintLoop, hx128, if_true, List.cons_append, uvarintLoop, hi10, if_false,
        hnlt, hbyte, hmod, hor, Nat.shiftRight_eq_div_pow, List.length_cons]
      rw [show 7 * i + 7 = 7 * (i + 1) by ring]
      norm_num at hrec ⊢
      rw [hrec, hpow]
      refine Prod.ext ?_ ?_
      · simp only
        rw [hxP, Nat.mul_comm (x / 128)]; omega
      · simp only
        ring
    · -- final byte
      have hxlt : x < 128 := by
        have : ¬ x ≥ 128 := hx128
        omega
      have hx256 : x % 256 = x := Nat.mod_eq_of_lt (by omega)
      have hmod : (x <<< (7 * i)) % 18446744073709551616 = x * 2 ^ (7 * i) := by
        rw [Nat.shiftLeft_eq]
        apply Nat.mod_eq_of_lt
        norm_num at hb ⊢
        omega
      have hor : acc ||| x * 2 ^ (7 * i) = acc + x * 2 ^ (7 * i) := by
        rw [Nat.or_comm, Nat.mul_comm, ← Nat.mul_add_lt_is_or hacc, Nat.add_comm]
      have h9 : ¬ (i = MaxVarintLen64 - 1 ∧ x > 1) := by
        rintro ⟨h9, hx1⟩
        simp [MaxVarintLen64] at h9
        subst h9
        norm_num at hb
        omega
      simp only [putUvarintLoop, hx128, if_false, List.cons_append, uvarintLoop, hi10,
        hx256, hxlt, if_true, h9, hmod, hor, List.length_cons, List.length_nil, List.nil_append,
        List.singleton_append]
      norm_num

theorem Uvarint_PutUvarint (x : Nat) (rest : Bytes) (hx : x < 2 ^ 64) :
    Uvarint (PutUvarint x ++ rest) = (x, ((PutUvarint x).length : Int)) := by
  have h := uvarintLoop_putUvarintLoop x x 0 0 rest (Nat.le_refl _) (by norm_num)
    (by simpa using hx) (by norm_num)
  simpa [Uvarint, PutUvarint] using h

theorem putUvarintLoop_length_pos (fuel x : Nat) : 1 ≤ (putUvarintLoop fuel x).length := by
  cases fuel with
  | zero => simp [putUvarintLoop]
  | succ fuel =>
    by_cases h : x ≥ 0x80 <;> simp [putUvarintLoop, h]

theorem putUvarintLoop_length_le (fuel : Nat) :
    ∀ (x k : Nat), x < 2 ^ (7 * (k + 1)) → (putUvarintLoop fuel x).length ≤ k + 1 := by
  induction fuel with
  | zero => intro x k _; simp [putUvarintLoop]
  | succ fuel ih =>
    intro x k hx
    by_cases h : x ≥ 0x80
    · cases k with
      | zero => norm_num at hx; omega
      | succ k =>
        have hpow : 2 ^ (7 * (k + 1 + 1)) = 128 * 2 ^ (7 * (k + 1)) := by
          rw [show 7 * (k + 1 + 1) = 7 + 7 * (k + 1) by ring, pow_add]; norm_num
        have hdiv : x / 128 < 2 ^ (7 * (k + 1)) := by
          rw [Nat.div_lt_iff_lt_mul (by norm_num)]
          rw [hpow] at hx; omega
        have := ih (x / 128) k hdiv
        simp only [putUvarintLoop, h, if_true, List.length_cons, Nat.shiftRight_eq_div_pow]
        norm_num
        exact this
    · simp [putUvarintLoop, h]

theorem PutUvarint_length (x : Nat) (hx : x < 2 ^ 64) :
    1 ≤ (PutUvarint x).length ∧ (PutUvarint x).length ≤ 10 := by
  refine ⟨putUvarintLoop_length_pos _ _, ?_⟩
  have : x < 2 ^ (7 * (9 + 1)) := lt_trans hx (by norm_num)
  exact putUvarintLoop_length_le x x 9 this

/-- The zig-zag value handed to `PutUvarint` by `PutVarint`, in arithmetic form. -/
theorem zigzag_nonneg (v : Int) (h0 : 0 ≤ v) (h1 : v < 2 ^ 63) :
    PutVarint v = PutUvarint (2 * v.toNat) := by
  have hu : uint64 v = v.toNat := by
    unfold uint64
    rw [Int.emod_eq_of_lt h0 (by norm_num at h1 ⊢; omega)]
  have hlt : ¬ v < 0 := by omega
  simp only [PutVarint, hu, hlt, if_false, Nat.shiftLeft_eq]
  congr 1
  norm_num at h1 ⊢
  omega

theorem Varint_PutVarint (v : Int) (rest : Bytes) (h0 : 0 ≤ v) (h1 : v < 2 ^ 63) :
    Varint (PutVarint v ++ rest) = (v, ((PutVarint v).length : Int)) := by
  rw [zigzag_nonneg v h0 h1]
  have hx : 2 * v.toNat < 2 ^ 64 := by norm_num at h1 ⊢; omega
  simp only [Varint, Uvarint_PutUvarint _ rest hx]
  have hshift : (2 * v.toNat) >>> 1 = v.toNat := by
    rw [Nat.shiftRight_eq_div_pow]; norm_num
  have hand : (2 * v.toNat) &&& 1 = 0 := by
    rw [Nat.and_one_is_mod]; omega
  have hi : int64 v.toNat = v := by
    unfold int64
    have hm : v.toNat % 18446744073709551616 = v.toNat := Nat.mod_eq_of_lt (by norm_num at h1; omega)
    rw [hm]
    have : v.toNat < 9223372036854775808 := by norm_num at h1; omega
    simp [this, Int.toNat_of_nonneg h0]
  simp [hshift, hand, hi]

theorem PutVarint_length (v : Int) (h0 : 0 ≤ v) (h1 : v < 2 ^ 63) :
    1 ≤ (PutVarint v).length ∧ (PutVarint v).length ≤ 10 := by
  rw [zigzag_nonneg v h0 h1]
  exact PutUvarint_length _ (by norm_num at h1 ⊢; omega)

theorem RecordType.ofTag_tag (t : RecordType) : RecordType.ofTag t.tag = some t := by
  cases t <;> rfl

/-- The decoder recovers a record from its packed header followed by its payload
(helper shared by the codec and the position-accounting results). -/
theorem BytesToRecord_Pack (r : Record) (hk : r.Key.length < 2 ^ 63)
    (hv : r.Value.length < 2 ^ 63) : BytesToRecord r.Pack = .ok r := by
  obtain ⟨key, value, typ⟩ := r
  simp only at hk hv
  have hk0 : (0 : Int) ≤ (key.length : Int) := Int.natCast_nonneg _
  have hv0 : (0 : Int) ≤ (value.length : Int) := Int.natCast_nonneg _
  have hk1 : (key.length : Int) < 2 ^ 63 := by exact_mod_cast hk
  have hv1 : (value.length : Int) < 2 ^ 63 := by exact_mod_cast hv
  have hkl := PutVarint_length _ hk0 hk1
  have hvl := PutVarint_length _ hv0 hv1
  set K := PutVarint (key.length : Int) with hK
  set V := PutVarint (value.length : Int) with hV
  have hpack : Record.Pack ⟨key, value, typ⟩
      = [0, 0, 0, 0, typ.tag] ++ (K ++ (V ++ (key ++ value))) := by
    simp [Record.Pack, RecordHeader.pack, hK, hV]
  have hlen : ¬ (Record.Pack ⟨key, value, typ⟩).length < 5 := by
    rw [hpack]; simp
  have hd5 : (Record.Pack ⟨key, value, typ⟩).drop 5 = K ++ (V ++ (key ++ value)) := by
    rw [hpack]; rfl
  have hget : (Record.Pack ⟨key, value, typ⟩).getD 4 0 = typ.tag := by
    rw [hpack]; rfl
  have hdk : (Record.Pack ⟨key, value, typ⟩).drop (5 + K.length) = V ++ (key ++ value) := by
    rw [← List.drop_drop, hd5, List.drop_left]
  have hdv : (Record.Pack ⟨key, value, typ⟩).drop (5 + K.length + V.length) = key ++ value := by
    rw [← List.drop_drop, hdk, List.drop_left]
  have hvk := Varint_PutVarint (key.length : Int) (V ++ (key ++ value)) hk0 hk1
  have hvv := Varint_PutVarint (value.length : Int) (key ++ value) hv0 hv1
  rw [← hK] at hvk
  rw [← hV] at hvv
  unfold BytesToRecord
  rw [if_neg hlen, hget, RecordType.ofTag_tag]
  simp only [hd5, hvk, Int.toNat_ofNat, hdk, hvv, hdv]
  have c1 : ¬ (((K.length : Int) ≤ 0) ∨ ((key.length : Int) < 0)) := by omega
  have c2 : ¬ (((V.length : Int) ≤ 0) ∨ ((value.length : Int) < 0)) := by omega
  rw [if_neg c1, if_neg c2]
  have c3 : ¬ ((key ++ value).length < key.length + value.length) := by simp
  rw [if_neg c3]
  simp

/-- C1. Codec round trip: decoding the bytes produced by packing a record yields a record
with the same key, the same value and the same type, for every record whose key and value
lengths fit a non-negative 64-bit integer (every Go byte slice). -/
theorem codec_round_trip (r : Record) (hk : r.Key.length < 2 ^ 63)
    (hv : r.Value.length < 2 ^ 63) :
    ∃ r', BytesToRecord r.Pack = .ok r' ∧ r'.Key = r.Key ∧ r'.Value = r.Value ∧ r'.Typ = r.Typ :=
  ⟨r, BytesToRecord_Pack r hk hv, rfl, rfl, rfl⟩

/-- Witness of C1 at a tombstone with a non-ASCII key and an empty value. -/
theorem codec_round_trip_witness :
    ∃ r', BytesToRecord (Record.Pack ⟨[228, 189, 160], [], .Deleted⟩) = .ok r' ∧
      r'.Key = [228, 189, 160] ∧ r'.Value = [] ∧ r'.Typ = .Deleted :=
  codec_round_trip ⟨[228, 189, 160], [], .Deleted⟩ (by norm_num) (by norm_num)

/-- C7. Header layout: for a header with non-negative 64-bit sizes, the packed bytes are
non-empty, byte 4 is the type tag, `Varint` on the bytes from index 5 returns the key size
consuming `n1` bytes, `Varint` on the bytes from index `5 + n1` returns the value size
consuming `n2` bytes, with `1 ≤ n1, n2 ≤ 10` and `5 + n1 + n2` the length of the packed header. -/
theorem header_layout (h : RecordHeader) (hk0 : 0 ≤ h.KeySize) (hk1 : h.KeySize < 2 ^ 63)
    (hv0 : 0 ≤ h.ValueSize) (hv1 : h.ValueSize < 2 ^ 63) :
    h.pack ≠ [] ∧ h.pack.get? 4 = some h.Typ.tag ∧
    ∃ n1 n2 : Nat,
      Varint (h.pack.drop 5) = (h.KeySize, (n1 : Int)) ∧ 0 < n1 ∧ n1 ≤ 10 ∧
      Varint (h.pack.drop (5 + n1)) = (h.ValueSize, (n2 : Int)) ∧ 0 < n2 ∧ n2 ≤ 10 ∧
      5 + n1 + n2 = h.pack.length := by
  have hkl := PutVarint_length _ hk0 hk1
  have hvl := PutVarint_length _ hv0 hv1
  have hpack : h.pack = [0, 0, 0, 0, h.Typ.tag] ++ (PutVarint h.KeySize ++ PutVarint h.ValueSize) := by
    simp [RecordHeader.pack]
  have hd5 : h.pack.drop 5 = PutVarint h.KeySize ++ PutVarint h.ValueSize := by
    rw [hpack]; rfl
  refine ⟨by rw [hpack]; simp, by rw [hpack]; rfl,
    (PutVarint h.KeySize).length, (PutVarint h.ValueSize).length, ?_, hkl.1, hkl.2, ?_,
    hvl.1, hvl.2, ?_⟩
  · rw [hd5]; exact Varint_PutVarint _ _ hk0 hk1
  · rw [← List.drop_drop, hd5, List.drop_left]
    have := Varint_PutVarint h.ValueSize [] hv0 hv1
    simpa using this
  · rw [hpack]; simp; omega

/-- Witness of C7 at the header of key "hello" and value "world" with type Deleted. -/
theorem header_layout_witness :
    (RecordHeader.pack ⟨0, .Deleted, 5, 5⟩) ≠ [] ∧
    (RecordHeader.pack ⟨0, .Deleted, 5, 5⟩).get? 4 = some RecordType.Deleted.tag ∧
    ∃ n1 n2 : Nat,
      Varint ((RecordHeader.pack ⟨0, .Deleted, 5, 5⟩).drop 5) = (5, (n1 : Int)) ∧ 0 < n1 ∧ n1 ≤ 10 ∧
      Varint ((RecordHeader.pack ⟨0, .Deleted, 5, 5⟩).drop (5 + n1)) = (5, (n2 : Int)) ∧
      0 < n2 ∧ n2 ≤ 10 ∧ 5 + n1 + n2 = (RecordHeader.pack ⟨0, .Deleted, 5, 5⟩).length :=
  header_layout ⟨0, .Deleted, 5, 5⟩ (by decide) (by decide) (by decide) (by decide)

/-! ## The store without rotation -/

theorem fileStorage.Usable.get? {fio : fileStorage} {fs : FileSystem} (h : fio.Usable fs) :
    fs.inodes[fio.activeFile.ino]? = some (fio.contents fs) := by
  unfold fileStorage.contents
  rw [List.getElem?_eq_getElem h.2]
  rfl

theorem fileStorage.Size_of_usable {fio : fileStorage} {fs : FileSystem} (h : fio.Usable fs) :
    fio.Size fs = (((fio.contents fs).length : Int), none) := by
  simp [fileStorage.Size, OsFile.StatSize, h.1, h.get?]

/-- The file system after the bytes `buf` were appended to the active file of `fio`. -/
theorem fileStorage.Write_of_fits {fio : fileStorage} {fs : FileSystem} (h : fio.Usable fs)
    (buf : Bytes) (hfit : ((fio.contents fs).length : Int) + (buf.length : Int) ≤ fio.maxSize) :
    fio.Write fs buf = .ok (((buf.length : Int), none), fio,
      { fs with inodes := fs.inodes.set fio.activeFile.ino (fio.contents fs ++ buf) }) := by
  have hnot : ¬ (((fio.contents fs).length : Int) + (buf.length : Int) > fio.maxSize) := by omega
  simp [fileStorage.Write, fileStorage.Size_of_usable h, hnot, OsFile.Write, h.1, h.get?]

theorem fileStorage.usable_set {fio : fileStorage} {fs : FileSystem} (h : fio.Usable fs)
    (data : Bytes) :
    fio.Usable { fs with inodes := fs.inodes.set fio.activeFile.ino data } ∧
    fio.contents { fs with inodes := fs.inodes.set fio.activeFile.ino data } = data := by
  refine ⟨⟨h.1, by simpa using h.2⟩, ?_⟩
  unfold fileStorage.contents
  simp [List.getElem?_set, h.2]

theorem fileStorage.Read_range {fio : fileStorage} {fs : FileSystem} (h : fio.Usable fs)
    (buf : Bytes) (offset : Int) (h0 : 0 ≤ offset)
    (hin : offset + (buf.length : Int) ≤ ((fio.contents fs).length : Int)) :
    fio.Read fs buf offset
      = (((fio.contents fs).drop offset.toNat).take buf.length, (buf.length : Int), none) := by
  have hoff : ¬ offset < 0 := by omega
  by_cases hb : buf.length = 0
  · have : buf = [] := List.length_eq_zero.1 hb
    subst this
    simp [fileStorage.Read, OsFile.ReadAt, h.1, hoff]
  · have hlen : (((fio.contents fs).drop offset.toNat).take buf.length).length = buf.length := by
      rw [List.length_take, List.length_drop]
      omega
    simp only [fileStorage.Read, OsFile.ReadAt, h.1, hoff, hb, h.get?, hlen]
    simp

theorem fileStorage.Read_append {fio : fileStorage} {fs : FileSystem} (h : fio.Usable fs)
    (a b c buf : Bytes) (hc : fio.contents fs = a ++ b ++ c) (hbuf : buf.length = b.length) :
    fio.Read fs buf (a.length : Int) = (b, (b.length : Int), none) := by
  rw [fileStorage.Read_range h buf _ (Int.natCast_nonneg _) (by rw [hc]; simp; omega), hc, hbuf]
  simp [List.append_assoc]

/-- C8. Store-level read-after-write: on a store whose active file is open, for every byte
sequence `bs` whose append does not trigger rotation, `Write` returns `(len(bs), nil)` and
grows the active segment by exactly `len(bs)`, leaving the earlier bytes in place; `Read` into
any buffer of length `len(bs)` at the offset equal to the size before the write then returns
`(len(bs), nil)` and fills the buffer with exactly `bs`. -/
theorem store_read_after_write (fio : fileStorage) (fs : FileSystem) (bs buf : Bytes)
    (husable : fio.Usable fs)
    (hfit : (fio.Size fs).1 + (bs.length : Int) ≤ fio.maxSize)
    (hbuf : buf.length = bs.length) :
    ∃ fio1 fs1, fio.Write fs bs = .ok (((bs.length : Int), none), fio1, fs1) ∧
      fio1.Size fs1 = ((fio.Size fs).1 + (bs.length : Int), none) ∧
      fio1.contents fs1 = fio.contents fs ++ bs ∧
      fio1.Read fs1 buf (fio.Size fs).1 = (bs, (bs.length : Int), none) := by
  rw [fileStorage.Size_of_usable husable] at hfit ⊢
  simp only at hfit ⊢
  have hset := fileStorage.usable_set husable (fio.contents fs ++ bs)
  refine ⟨fio, _, fileStorage.Write_of_fits husable bs hfit, ?_, hset.2, ?_⟩
  · rw [fileStorage.Size_of_usable hset.1, hset.2]
    simp
  · exact fileStorage.Read_append hset.1 (fio.contents fs) bs [] buf (by rw [hset.2]; simp) hbuf

/-! ## The manager -/

theorem StorageManager.lookup_store (sm : StorageManager) (sid : Session) (st : fileStorage) :
    (sm.store sid st).lookup sid = some st := by
  simp [StorageManager.lookup, StorageManager.store, List.lookup]

theorem StorageManager.resolveStorage_of_lookup {sm : StorageManager} {sid : Session}
    {st : fileStorage} (fs : FileSystem) (h : sm.lookup sid = some st) :
    sm.resolveStorage fs sid = .ok (st, sm, fs) := by
  simp [StorageManager.resolveStorage, h]

theorem StorageManager.lookup_of_resolveStorage {sm sm1 : StorageManager} {fs fs1 : FileSystem}
    {sid : Session} {st : fileStorage} (h : sm.resolveStorage fs sid = .ok (st, sm1, fs1)) :
    sm1.lookup sid = some st := by
  unfold StorageManager.resolveStorage at h
  simp only at h
  generalize (if ¬ (sm.lookup sid).isSome = true then sm.initializeStorage fs sm.typ sid
    else Except.ok (sm, fs)) = init at h
  cases init with
  | error p => simp at h
  | ok v =>
    obtain ⟨sm2, fs2⟩ := v
    simp only at h
    cases hl : sm2.lookup sid with
    | none => rw [hl] at h; simp at h
    | some st2 =>
      rw [hl] at h
      simp only [Except.ok.injEq, Prod.mk.injEq] at h
      obtain ⟨h1, h2, _⟩ := h
      subst h1 h2
      exact hl

/-- A write that fits: the position is the old size, the store keeps its active file, and
the packed record is appended to it. -/
theorem StorageManager.Write_position {sm sm1 : StorageManager} {fs fs1 : FileSystem}
    {sid : Session} {st : fileStorage} (r : Record)
    (hres : sm.resolveStorage fs sid = .ok (st, sm1, fs1)) (husable : st.Usable fs1)
    (hfit : ((st.contents fs1).length : Int) + (r.Pack.length : Int) ≤ st.maxSize) :
    sm.Write fs sid r = .ok (⟨((st.contents fs1).length : Int), (r.Pack.length : Int)⟩,
      sm1.store sid st,
      { fs1 with inodes := fs1.inodes.set st.activeFile.ino (st.contents fs1 ++ r.Pack) }) := by
  have hset := fileStorage.usable_set husable (st.contents fs1 ++ r.Pack)
  simp only [StorageManager.Write, hres, fileStorage.Write_of_fits husable r.Pack hfit,
    fileStorage.Size_of_usable hset.1, hset.2]
  simp

/-- C10 (amended). Positional read bounds on a store whose active file is open: `Read`
returns an error when the offset is negative, or when the buffer is non-empty and
`offset + len(buffer)` exceeds the current size; otherwise (an empty buffer at any
non-negative offset included) it returns `(len(buffer), nil)` with the buffer equal to the
requested byte range. `StorageManager.Read` panics whenever the store read returns an error. -/
theorem read_bounds (fio : fileStorage) (fs : FileSystem) (buf : Bytes) (offset : Int)
    (husable : fio.Usable fs) :
    ((offset < 0 ∨ (buf ≠ [] ∧ offset + (buf.length : Int) > (fio.Size fs).1)) →
      (fio.Read fs buf offset).2.2 ≠ none) ∧
    (¬ (offset < 0 ∨ (buf ≠ [] ∧ offset + (buf.length : Int) > (fio.Size fs).1)) →
      fio.Read fs buf offset
        = (((fio.contents fs).drop offset.toNat).take buf.length, (buf.length : Int), none)) ∧
    (∀ (sm sm1 : StorageManager) (fs0 fs1 : FileSystem) (session : Session)
      (position : RecordPosition) (storage : fileStorage),
      sm.resolveStorage fs0 session = .ok (storage, sm1, fs1) →
      (storage.Read fs1 (List.replicate position.Size.toNat 0) position.Position).2.2 ≠ none →
      ∃ p, sm.Read fs0 session position = .error p) := by
  rw [fileStorage.Size_of_usable husable]
  refine ⟨?_, ?_, ?_⟩
  · rintro (hneg | ⟨hne, hbig⟩)
    · simp [fileStorage.Read, OsFile.ReadAt, husable.1, hneg]
    · by_cases hneg : offset < 0
      · simp [fileStorage.Read, OsFile.ReadAt, husable.1, hneg]
      · have hb : buf.length ≠ 0 := fun h => hne (List.length_eq_zero.1 h)
        have hshort : (fio.contents fs).length - offset.toNat < buf.length := by
          simp only at hbig
          omega
        simp [fileStorage.Read, OsFile.ReadAt, husable.1, hneg, hb, husable.get?, hshort]
  · intro hnot
    have h0 : 0 ≤ offset := by
      by_contra hc
      exact hnot (Or.inl (by omega))
    by_cases hb : buf = []
    · subst hb
      have hoff : ¬ offset < 0 := by omega
      simp [fileStorage.Read, OsFile.ReadAt, husable.1, hoff]
    · apply fileStorage.Read_range husable buf offset h0
      by_contra hc
      exact hnot (Or.inr ⟨hb, by simp only; omega⟩)
  · intro sm sm1 fs0 fs1 session position storage hres herr
    unfold StorageManager.Read
    rw [hres]
    simp only
    by_cases hsz : position.Size < 0
    · exact ⟨_, by rw [if_pos hsz]⟩
    · rw [if_neg hsz]
      cases he : (storage.Read fs1 (List.replicate position.Size.toNat 0) position.Position).2.2 with
      | none => exact absurd he herr
      | some e => exact ⟨_, rfl⟩

/-- C5. Delete is an append: `Delete(s, k)` is `Write(s, Record{k, empty, Deleted})`; when the
tombstone fits in the active segment of an open store, the returned position has `Position`
equal to the old size and `Size` equal to the packed length, the table's size afterwards is
its size before plus the packed length, and the bytes present before are a prefix of the new
contents, which end with the packed tombstone. -/
theorem delete_is_append (sm sm1 : StorageManager) (fs fs1 : FileSystem) (session : Session)
    (key : Bytes) (storage : fileStorage)
    (hres : sm.resolveStorage fs session = .ok (storage, sm1, fs1))
    (husable : storage.Usable fs1)
    (hfit : (storage.Size fs1).1 + ((Record.Pack ⟨key, [], .Deleted⟩).length : Int)
      ≤ storage.maxSize) :
    sm.Delete fs session key = sm.Write fs session ⟨key, [], .Deleted⟩ ∧
    sm.Size fs session = .ok (storage.Size fs1, sm1, fs1) ∧
    ∃ sm2 fs2,
      sm.Delete fs session key
        = .ok (⟨(storage.Size fs1).1, ((Record.Pack ⟨key, [], .Deleted⟩).length : Int)⟩,
            sm2, fs2) ∧
      sm2.Size fs2 session
        = .ok (((storage.Size fs1).1 + ((Record.Pack ⟨key, [], .Deleted⟩).length : Int), none),
            sm2, fs2) ∧
      storage.contents fs2 = storage.contents fs1 ++ Record.Pack ⟨key, [], .Deleted⟩ := by
  rw [fileStorage.Size_of_usable husable] at hfit ⊢
  simp only at hfit ⊢
  have hset := fileStorage.usable_set husable
    (storage.contents fs1 ++ Record.Pack ⟨key, [], .Deleted⟩)
  refine ⟨rfl, ?_, _, _, StorageManager.Write_position _ hres husable hfit, ?_, hset.2⟩
  · simp [StorageManager.Size, hres, fileStorage.Size_of_usable husable]
  · simp only [StorageManager.Size,
      StorageManager.resolveStorage_of_lookup _ (StorageManager.lookup_store sm1 session storage),
      fileStorage.Size_of_usable hset.1, hset.2]
    simp

theorem Readable.mono {st : fileStorage} {fs fs1 : FileSystem} {r : Record} {p : RecordPosition}
    (h : Readable st fs r p) (more : Bytes) (hc : st.contents fs1 = st.contents fs ++ more) :
    Readable st fs1 r p := by
  obtain ⟨h0, h1, h2, h3⟩ := h
  refine ⟨h0, h1, by rw [hc]; simp; omega, ?_⟩
  rw [hc, List.drop_append_of_le_length (by omega), List.take_append_of_le_length
    (by rw [List.length_drop]; omega), h3]

theorem Readable.read {st : fileStorage} {fs : FileSystem} {r : Record} {p : RecordPosition}
    {sm : StorageManager} {sid : Session}
    (h : Readable st fs r p) (husable : st.Usable fs) (hl : sm.lookup sid = some st)
    (hrt : BytesToRecord r.Pack = .ok r) :
    sm.Read fs sid p = .ok (r, sm, fs) := by
  obtain ⟨h0, h1, h2, h3⟩ := h
  have hsz : ¬ p.Size < 0 := by omega
  have hread := fileStorage.Read_range husable (List.replicate p.Size.toNat 0) p.Position h0
    (by simp; omega)
  have hlen : p.Size.toNat = r.Pack.length := by omega
  rw [hlen] at hread
  simp only [List.length_replicate] at hread
  rw [h3] at hread
  simp only [StorageManager.Read, StorageManager.resolveStorage_of_lookup fs hl, hsz, if_false,
    hlen, hread, hrt]

theorem Readable.of_write {st : fileStorage} {fs : FileSystem} (husable : st.Usable fs)
    (r : Record) :
    Readable st { fs with inodes := fs.inodes.set st.activeFile.ino (st.contents fs ++ r.Pack) }
      r ⟨((st.contents fs).length : Int), (r.Pack.length : Int)⟩ := by
  have hset := fileStorage.usable_set husable (st.contents fs ++ r.Pack)
  refine ⟨Int.natCast_nonneg _, rfl, ?_, ?_⟩
  · rw [hset.2]; simp
  · rw [hset.2]; simp

theorem StorageManager.writeAll_readable (session : Session) (st : fileStorage) :
    ∀ (rs : List Record) (sm : StorageManager) (fs : FileSystem),
      sm.lookup session = some st → st.Usable fs →
      ((st.contents fs).length : Int) + (((rs.map (fun r => r.Pack.length)).sum : Nat) : Int)
        ≤ st.maxSize →
      (∀ r ∈ rs, BytesToRecord r.Pack = .ok r) →
      ∃ ps smN fsN, sm.writeAll fs session rs = .ok (ps, smN, fsN) ∧
        smN.lookup session = some st ∧ st.Usable fsN ∧
        (∃ more, st.contents fsN = st.contents fs ++ more) ∧
        List.Forall₂ (fun r p => Readable st fsN r p ∧ BytesToRecord r.Pack = .ok r) rs ps := by
  intro rs
  induction rs with
  | nil =>
    intro sm fs hl husable _ _
    exact ⟨[], sm, fs, rfl, hl, husable, ⟨[], by simp⟩, List.Forall₂.nil⟩
  | cons r rs ih =>
    intro sm fs hl husable hfit hrt
    simp only [List.map_cons, List.sum_cons, Nat.cast_add] at hfit
    have hset := fileStorage.usable_set husable (st.contents fs ++ r.Pack)
    have hw := StorageManager.Write_position r (StorageManager.resolveStorage_of_lookup fs hl)
      husable (by omega)
    obtain ⟨ps, smN, fsN, hall, hlN, huN, ⟨more, hmore⟩, hread⟩ :=
      ih (sm.store session st) _ (StorageManager.lookup_store sm session st) hset.1
        (by rw [hset.2]; simp only [List.length_append, Nat.cast_add]; omega)
        (fun x hx => hrt x (List.mem_cons_of_mem _ hx))
    refine ⟨(⟨((st.contents fs).length : Int), (r.Pack.length : Int)⟩ : RecordPosition) :: ps,
      smN, fsN, ?_, hlN, huN, ⟨r.Pack ++ more, ?_⟩, List.Forall₂.cons ⟨?_, ?_⟩ hread⟩
    · simp only [StorageManager.writeAll, hw, hall]
    · rw [hmore, hset.2, List.append_assoc]
    · exact (Readable.of_write husable r).mono more hmore
    · exact hrt r (List.mem_cons_self _ _)

/-- C2. Position accounting: when the store of the table is open and the records
`r_1 .. r_N`, written one after another with `StorageManager.Write`, fit in the active
segment without rotation, all the writes succeed, and after them `StorageManager.Read` at the
position returned for `r_i` returns a record with the key, value and type of `r_i`, for
every `i`; assuming the codec round trip for each `r_i`. -/
theorem position_accounting (sm sm1 : StorageManager) (fs fs1 : FileSystem) (session : Session)
    (storage : fileStorage) (rs : List Record)
    (hres : sm.resolveStorage fs session = .ok (storage, sm1, fs1))
    (husable : storage.Usable fs1)
    (hfit : (storage.Size fs1).1 + (((rs.map (fun r => r.Pack.length)).sum : Nat) : Int)
      ≤ storage.maxSize)
    (hrt : ∀ r ∈ rs, BytesToRecord r.Pack = .ok r) :
    ∃ ps smN fsN, sm.writeAll fs session rs = .ok (ps, smN, fsN) ∧
      List.Forall₂ (fun r p => ∃ r1 smR fsR, smN.Read fsN session p = .ok (r1, smR, fsR) ∧
        r1.Key = r.Key ∧ r1.Value = r.Value ∧ r1.Typ = r.Typ) rs ps := by
  rw [fileStorage.Size_of_usable husable] at hfit
  simp only at hfit
  cases rs with
  | nil => exact ⟨[], sm, fs, rfl, List.Forall₂.nil⟩
  | cons r rs =>
    simp only [List.map_cons, List.sum_cons, Nat.cast_add] at hfit
    have hset := fileStorage.usable_set husable (storage.contents fs1 ++ r.Pack)
    have hw := StorageManager.Write_position r hres husable (by omega)
    obtain ⟨ps, smN, fsN, hall, hlN, huN, ⟨more, hmore⟩, hread⟩ :=
      StorageManager.writeAll_readable session storage rs (sm1.store session storage) _
        (StorageManager.lookup_store sm1 session storage) hset.1
        (by rw [hset.2]; simp only [List.length_append, Nat.cast_add]; omega)
        (fun x hx => hrt x (List.mem_cons_of_mem _ hx))
    have hfirst := (Readable.of_write husable r).mono more hmore
    refine ⟨(⟨((storage.contents fs1).length : Int), (r.Pack.length : Int)⟩ : RecordPosition)
      :: ps, smN, fsN, by simp only [StorageManager.writeAll, hw, hall], ?_⟩
    refine List.Forall₂.cons ⟨r, smN, fsN, hfirst.read huN hlN (hrt r (List.mem_cons_self _ _)),
      rfl, rfl, rfl⟩ ?_
    exact hread.imp (fun a b hab => ⟨a, smN, fsN, hab.1.read huN hlN hab.2, rfl, rfl, rfl⟩)

/-! ## Behaviour at concrete states -/

theorem NewLocalFileStorage_empty :
    NewLocalFileStorage emptyFs "/tmp/db" "s" "t" = .ok (demoStore, demoFs) := by
  decide

theorem demoStore_usable : demoStore.Usable demoFs := by decide

theorem demoStore_Write_rotation (buf : Bytes) (h : buf.length = 1048577) :
    demoStore.Write demoFs buf = .error (.error .ErrSyntax) := by
  have hs : demoStore.Size demoFs = (0, none) := by decide
  have hm : demoStore.maxSize = 1048576 := by decide
  have hf : demoStore.Flush = none := by decide
  have hc : demoStore.createAndResetActiveFile demoFs = .error (.error .ErrSyntax) := by decide
  unfold fileStorage.Write
  rw [hs]
  simp only [hm, hf, hc, h]
  norm_num

/-- C3 (the code at the failing input). In the store that `NewLocalFileStorage` makes in an
empty file system, a write of 1048577 bytes, one more than `maxSize`, does not rotate: it
panics with the syntax error of `strconv.ParseInt`, applied to the full path of the active
file without its last five bytes. -/
theorem rotation_panics :
    NewLocalFileStorage emptyFs "/tmp/db" "s" "t" = .ok (demoStore, demoFs) ∧
    demoStore.Size demoFs = (0, none) ∧ demoStore.maxSize = 1048576 ∧
    (List.replicate 1048577 0 : Bytes).length = 1048577 ∧
    demoStore.Write demoFs (List.replicate 1048577 0) = .error (.error .ErrSyntax) :=
  ⟨NewLocalFileStorage_empty, by decide, by decide, List.length_replicate _ _,
    demoStore_Write_rotation _ (List.length_replicate _ _)⟩

/-- C9 (the code at the failing input). For a table directory that holds the segments 0 and
1, `NewLocalFileStorage` opens segment 1 as the active file and puts both names, the active
one included, in `oldFiles`. -/
theorem startup_keeps_active_in_oldFiles :
    ∃ st fs, NewLocalFileStorage twoSegmentFs "/tmp/db" "s" "t" = .ok (st, fs) ∧
      st.activeFile.name = "/tmp/db/s/t/         1.data" ∧
      st.oldFiles = ["         0.data", "         1.data"] ∧
      "         1.data" ∈ st.oldFiles :=
  ⟨⟨⟨"/tmp/db/s/t/         1.data", 1, false⟩, ["         0.data", "         1.data"],
      "/tmp/db", "s", "t", 1024 * 1024⟩, twoSegmentFs, by decide, rfl, rfl, by decide⟩

/-- C6. Storage backend selection: `resolveStorageType` returns `Local_File` for the empty
string and for `"local_file"` and panics for every other string; `NewStorageManager` panics
for every configuration whose storage type is non-empty and different from `"local_file"`,
so no manager exists on which a read or a write could be called. -/
theorem storage_type_selection (FromDbOptions : DBConfig → String) (cfg : DBConfig)
    (typ : String) :
    resolveStorageType "" = .ok Local_File ∧
    resolveStorageType "local_file" = .ok Local_File ∧
    (typ ≠ "" → typ ≠ "local_file" →
      resolveStorageType typ = .error (.message "unknown storage type")) ∧
    (cfg.StorageType ≠ "" → cfg.StorageType ≠ "local_file" →
      NewStorageManager FromDbOptions cfg = .error (.message "unknown storage type")) := by
  refine ⟨by decide, by decide, ?_, ?_⟩
  · intro h1 h2
    simp [resolveStorageType, h1, h2]
  · intro h1 h2
    simp [NewStorageManager, resolveStorageType, h1, h2]

/-- Witness of C6 at the storage type `"s3"`. -/
theorem storage_type_selection_witness :
    resolveStorageType "s3" = .error (.message "unknown storage type") ∧
    NewStorageManager DBConfig.RootPath ⟨"/tmp/db", "s3"⟩
      = .error (.message "unknown storage type") :=
  ⟨(storage_type_selection DBConfig.RootPath ⟨"/tmp/db", "s3"⟩ "s3").2.2.1 (by decide) (by decide),
   (storage_type_selection DBConfig.RootPath ⟨"/tmp/db", "s3"⟩ "s3").2.2.2 (by decide)
     (by decide)⟩

/-- C10 (counterexample). On the open store with an empty active file, a read into the empty
buffer at offset 1 asks for a range that ends beyond the current size, and yet returns
`(0, nil)`: no error. -/
theorem read_bounds_counterexample :
    (1 : Int) + (([] : Bytes).length : Int) > (demoStore.Size demoFs).1 ∧
    demoStore.Read demoFs [] 1 = ([], 0, none) := by
  decide

/-- Witness of C10 at a read of four bytes at offset 1 of an empty active file. -/
theorem read_bounds_witness :
    demoStore.Usable demoFs ∧ (demoStore.Read demoFs [0, 0, 0, 0] 1).2.2 ≠ none :=
  ⟨demoStore_usable,
    (read_bounds demoStore demoFs [0, 0, 0, 0] 1 demoStore_usable).1
      (Or.inr ⟨by decide, by decide⟩)⟩

/-- Witness of C8 at the bytes of "你好" appended to an empty active file. -/
theorem store_read_after_write_witness :
    ∃ fio1 fs1,
      demoStore.Write demoFs [228, 189, 160, 229, 165, 189] = .ok ((((6 : Nat) : Int), none), fio1, fs1) ∧
      fio1.Size fs1 = ((demoStore.Size demoFs).1 + ((6 : Nat) : Int), none) ∧
      fio1.contents fs1 = demoStore.contents demoFs ++ [228, 189, 160, 229, 165, 189] ∧
      fio1.Read fs1 [0, 0, 0, 0, 0, 0] (demoStore.Size demoFs).1
        = ([228, 189, 160, 229, 165, 189], ((6 : Nat) : Int), none) :=
  store_read_after_write demoStore demoFs [228, 189, 160, 229, 165, 189] [0, 0, 0, 0, 0, 0]
    demoStore_usable (by decide) (by decide)

/-- Witness of C5 at the key "hi" on the table `s.t` of a new manager. -/
theorem delete_is_append_witness :
    demoManager.Delete emptyFs demoSession [104, 105]
      = demoManager.Write emptyFs demoSession ⟨[104, 105], [], .Deleted⟩ ∧
    ∃ sm2 fs2,
      demoManager.Delete emptyFs demoSession [104, 105]
        = .ok (⟨(demoStore.Size demoFs).1,
            ((Record.Pack ⟨[104, 105], [], .Deleted⟩).length : Int)⟩, sm2, fs2) ∧
      demoStore.contents fs2 = demoStore.contents demoFs ++ Record.Pack ⟨[104, 105], [], .Deleted⟩ :=
  have h := delete_is_append demoManager (demoManager.store demoSession demoStore) emptyFs demoFs
    demoSession [104, 105] demoStore (by decide) demoStore_usable (by decide)
  ⟨h.1, h.2.2.imp (fun _ h2 => h2.imp (fun _ h3 => ⟨h3.1, h3.2.2⟩))⟩

/-- Witness of C2 at a live record followed by a tombstone on the table `s.t` of a new
manager. -/
theorem position_accounting_witness :
    ∃ ps smN fsN,
      demoManager.writeAll emptyFs demoSession [demoRecord, ⟨[104, 105], [], .Deleted⟩]
        = .ok (ps, smN, fsN) ∧
      List.Forall₂ (fun r p => ∃ r1 smR fsR, smN.Read fsN demoSession p = .ok (r1, smR, fsR) ∧
        r1.Key = r.Key ∧ r1.Value = r.Value ∧ r1.Typ = r.Typ)
        [demoRecord, ⟨[104, 105], [], .Deleted⟩] ps :=
  position_accounting demoManager (demoManager.store demoSession demoStore) emptyFs demoFs
    demoSession demoStore [demoRecord, ⟨[104, 105], [], .Deleted⟩] (by decide) demoStore_usable
    (by decide) (by decide)

/-! ## Paths and the file system -/

theorem splitSlash_ne_nil (l : List Char) : splitSlash l ≠ [] := by
  cases l with
  | nil => simp [splitSlash]
  | cons c cs =>
    unfold splitSlash
    split
    · simp
    · split <;> simp

theorem splitSlash_noslash (n : List Char) (h : '/' ∉ n) : splitSlash n = [n] := by
  induction n with
  | nil => rfl
  | cons c cs ih =>
    have hc : c ≠ '/' := fun e => h (by simp [e])
    have hcs : '/' ∉ cs := fun e => h (List.mem_cons_of_mem _ e)
    unfold splitSlash
    rw [ih hcs]
    simp [hc]

theorem splitSlash_append (d n : List Char) (h : '/' ∉ n) :
    splitSlash (d ++ '/' :: n) = splitSlash d ++ [n] := by
  induction d with
  | nil =>
    show splitSlash ('/' :: n) = splitSlash [] ++ [n]
    unfold splitSlash
    rw [splitSlash_noslash n h]
    simp [splitSlash]
  | cons c cs ih =>
    show splitSlash (c :: (cs ++ '/' :: n)) = splitSlash (c :: cs) ++ [n]
    rw [splitSlash, ih]
    have hne := splitSlash_ne_nil cs
    cases hs : splitSlash cs with
    | nil => exact absurd hs hne
    | cons w ws =>
      rw [splitSlash, hs]
      by_cases hc : c = '/' <;> simp [hc]

/-- A plain name is one element of a path: not empty, without a slash, neither `.` nor `..`. -/
theorem FileSystem.resolve_child (fs : FileSystem) (dir name : String) (hdir : dir.data ≠ [])
    (h1 : '/' ∉ name.data) (h2 : name.data ≠ []) (h3 : name.data ≠ ['.'])
    (h4 : name.data ≠ ['.', '.']) :
    fs.resolve (dir ++ "/" ++ name) = fs.resolve dir ++ [name] := by
  have hdata : (dir ++ "/" ++ name).data = dir.data ++ '/' :: name.data := by
    simp [String.data_append]
  have hhead : (dir.data ++ '/' :: name.data).head? = dir.data.head? := by
    cases hd : dir.data with
    | nil => exact absurd hd hdir
    | cons c cs => rfl
  unfold FileSystem.resolve
  rw [hdata, hhead, splitSlash_append _ _ h1, List.foldl_append]
  simp [resolveStep, h2, h3, h4]

theorem FileSystem.walk_dir_iff (fs : FileSystem) (rest : List String) :
    ∀ pre, fs.walk pre rest = .dir ↔
      ∀ q, q <+: rest → q ≠ [] → pre ++ q ∈ fs.dirs := by
  induction rest with
  | nil =>
    intro pre
    simp only [FileSystem.walk, true_iff]
    intro q hq hne
    exact absurd (List.prefix_nil.1 hq) hne
  | cons c cs ih =>
    intro pre
    unfold FileSystem.walk
    constructor
    · intro h q hq hne
      by_cases hmem : pre ++ [c] ∈ fs.dirs
      · rw [if_pos hmem] at h
        cases q with
        | nil => exact absurd rfl hne
        | cons a q1 =>
          obtain ⟨rfl, hq1⟩ := List.cons_prefix_cons.1 hq
          by_cases hq1n : q1 = []
          · subst hq1n; exact hmem
          · have := (ih (pre ++ [a])).1 h q1 hq1 hq1n
            simpa using this
      · rw [if_neg hmem] at h
        split at h
        · split at h <;> exact absurd h (by simp)
        · exact absurd h (by simp)
    · intro h
      have hmem : pre ++ [c] ∈ fs.dirs := h [c] (by simp) (by simp)
      rw [if_pos hmem]
      rw [ih]
      intro q hq hne
      have := h (c :: q) (List.cons_prefix_cons.2 ⟨rfl, hq⟩) (by simp)
      simpa using this

theorem FileSystem.status_dir_iff (fs : FileSystem) (place : List String) :
    fs.status place = .dir ↔ ∀ q, q <+: place → q ≠ [] → q ∈ fs.dirs := by
  have := fs.walk_dir_iff place []
  simpa [FileSystem.status] using this

/-- The walk past a directory goes on from it. -/
theorem FileSystem.walk_append (fs : FileSystem) (rest more : List String) :
    ∀ pre, fs.walk pre rest = .dir → fs.walk pre (rest ++ more) = fs.walk (pre ++ rest) more := by
  induction rest with
  | nil => intro pre _; simp
  | cons c cs ih =>
    intro pre h
    have hmem : pre ++ [c] ∈ fs.dirs :=
      (fs.walk_dir_iff (c :: cs) pre).1 h [c] (by simp) (by simp)
    have hrest : fs.walk (pre ++ [c]) cs = .dir := by
      unfold FileSystem.walk at h
      rwa [if_pos hmem] at h
    have e : fs.walk pre (c :: (cs ++ more)) = fs.walk (pre ++ [c]) (cs ++ more) := by
      rw [FileSystem.walk, if_pos hmem]
    show fs.walk pre (c :: (cs ++ more)) = _
    rw [e, ih _ hrest]
    simp

theorem lookup_none_of_forall_ne {α β : Type} [BEq α] [LawfulBEq α] (l : List (α × β)) (k : α)
    (h : ∀ f ∈ l, f.1 ≠ k) : l.lookup k = none := by
  rw [List.lookup_eq_none_iff]
  intro f hf
  simpa [bne_iff_ne] using (h f hf).symm

theorem lookup_filter_none {α β : Type} [BEq α] [LawfulBEq α] (l : List (α × β)) (k : α)
    (p : α × β → Bool) (h : l.lookup k = none) : (l.filter p).lookup k = none := by
  rw [List.lookup_eq_none_iff] at h ⊢
  intro f hf
  exact h f (List.mem_filter.1 hf).1

/-- Nothing is found where a missing element is reached before any regular file. -/
theorem FileSystem.walk_notExist (fs : FileSystem) (rest : List String) :
    ∀ pre, rest ≠ [] → pre ++ rest ∉ fs.dirs →
      (∀ q, q <+: rest → q ≠ [] → pre ++ q ∈ fs.dirs ∨ fs.files.lookup (pre ++ q) = none) →
      fs.walk pre rest = .notExist := by
  induction rest with
  | nil => intro pre h; exact absurd rfl h
  | cons c cs ih =>
    intro pre _ hnot hall
    unfold FileSystem.walk
    by_cases hmem : pre ++ [c] ∈ fs.dirs
    · rw [if_pos hmem]
      have hcs : cs ≠ [] := by
        intro e
        subst e
        exact hnot hmem
      apply ih _ hcs
      · simpa using hnot
      · intro q hq hne
        have := hall (c :: q) (List.cons_prefix_cons.2 ⟨rfl, hq⟩) (by simp)
        simpa using this
    · rw [if_neg hmem]
      rcases hall [c] (by simp) (by simp) with h | h
      · exact absurd h hmem
      · rw [h]

theorem prefix_cons_iff {c : String} {cs q' : List String} :
    (q' <+: c :: cs ∧ q' ≠ []) ↔ ∃ q, q <+: cs ∧ q' = c :: q := by
  constructor
  · rintro ⟨hq, hne⟩
    cases q' with
    | nil => exact absurd rfl hne
    | cons a q =>
      obtain ⟨rfl, hq1⟩ := List.cons_prefix_cons.1 hq
      exact ⟨q, hq1, rfl⟩
  · rintro ⟨q, hq, rfl⟩
    exact ⟨List.cons_prefix_cons.2 ⟨rfl, hq⟩, by simp⟩

theorem FileSystem.mkdirWalk_spec (rest : List String) :
    ∀ (fs fs1 : FileSystem) (pre : List String), fs.mkdirWalk pre rest = .ok fs1 →
      fs1.files = fs.files ∧ fs1.inodes = fs.inodes ∧ fs1.cwd = fs.cwd ∧
      ∀ k, k ∈ fs1.dirs ↔ k ∈ fs.dirs ∨ ∃ q, q <+: rest ∧ q ≠ [] ∧ k = pre ++ q := by
  induction rest with
  | nil =>
    intro fs fs1 pre h
    simp only [FileSystem.mkdirWalk, Except.ok.injEq] at h
    subst h
    refine ⟨rfl, rfl, rfl, fun k => ⟨Or.inl, ?_⟩⟩
    rintro (h | ⟨q, hq, hne, _⟩)
    · exact h
    · exact absurd (List.prefix_nil.1 hq) hne
  | cons c cs ih =>
    intro fs fs1 pre h
    rw [FileSystem.mkdirWalk] at h
    by_cases hmem : pre ++ [c] ∈ fs.dirs
    · rw [if_pos hmem] at h
      obtain ⟨h1, h2, h3, h4⟩ := ih fs fs1 (pre ++ [c]) h
      refine ⟨h1, h2, h3, fun k => ?_⟩
      rw [h4]
      constructor
      · rintro (hk | ⟨q, hq, _, rfl⟩)
        · exact Or.inl hk
        · exact Or.inr ⟨c :: q, List.cons_prefix_cons.2 ⟨rfl, hq⟩, by simp, by simp⟩
      · rintro (hk | ⟨q', hq', hne', rfl⟩)
        · exact Or.inl hk
        · obtain ⟨q, hq, rfl⟩ := prefix_cons_iff.1 ⟨hq', hne'⟩
          by_cases hqn : q = []
          · subst hqn; exact Or.inl hmem
          · exact Or.inr ⟨q, hq, hqn, by simp⟩
    · rw [if_neg hmem] at h
      by_cases hfile : (fs.files.lookup (pre ++ [c])).isSome = true
      · rw [if_pos hfile] at h
        exact absurd h (by simp)
      · rw [if_neg hfile] at h
        obtain ⟨h1, h2, h3, h4⟩ := ih _ fs1 (pre ++ [c]) h
        refine ⟨h1, h2, h3, fun k => ?_⟩
        rw [h4]
        simp only [List.mem_cons]
        constructor
        · rintro ((rfl | hk) | ⟨q, hq, _, rfl⟩)
          · exact Or.inr ⟨[c], by simp, by simp, rfl⟩
          · exact Or.inl hk
          · exact Or.inr ⟨c :: q, List.cons_prefix_cons.2 ⟨rfl, hq⟩, by simp, by simp⟩
        · rintro (hk | ⟨q', hq', hne', rfl⟩)
          · exact Or.inl (Or.inr hk)
          · obtain ⟨q, hq, rfl⟩ := prefix_cons_iff.1 ⟨hq', hne'⟩
            by_cases hqn : q = []
            · subst hqn; exact Or.inl (Or.inl rfl)
            · exact Or.inr ⟨q, hq, hqn, by simp⟩

theorem FileSystem.mkdirWalk_ok (rest : List String) :
    ∀ (fs : FileSystem) (pre : List String),
      (∀ q, q <+: rest → q ≠ [] → pre ++ q ∈ fs.dirs ∨ fs.files.lookup (pre ++ q) = none) →
      ∃ fs1, fs.mkdirWalk pre rest = .ok fs1 := by
  induction rest with
  | nil => intro fs pre _; exact ⟨fs, rfl⟩
  | cons c cs ih =>
    intro fs pre hall
    rw [FileSystem.mkdirWalk]
    by_cases hmem : pre ++ [c] ∈ fs.dirs
    · rw [if_pos hmem]
      apply ih
      intro q hq hne
      have := hall (c :: q) (List.cons_prefix_cons.2 ⟨rfl, hq⟩) (by simp)
      simpa using this
    · rw [if_neg hmem]
      have hnone : fs.files.lookup (pre ++ [c]) = none := by
        rcases hall [c] (by simp) (by simp) with h | h
        · exact absurd h hmem
        · exact h
      rw [hnone]
      simp only [Option.isSome_none, Bool.false_eq_true, if_false]
      apply ih
      intro q hq hne
      have := hall (c :: q) (List.cons_prefix_cons.2 ⟨rfl, hq⟩) (by simp)
      rcases this with h | h
      · exact Or.inl (List.mem_cons_of_mem _ (by simpa using h))
      · exact Or.inr (by simpa using h)

theorem FileSystem.resolve_congr {fs fs1 : FileSystem} (h : fs1.cwd = fs.cwd) (p : String) :
    fs1.resolve p = fs.resolve p := by
  simp [FileSystem.resolve, h]

theorem FileSystem.Removable.ne_nil {fs : FileSystem} {p : String} (h : fs.Removable p) :
    fs.resolve p ≠ [] := by
  intro e
  have := h.2.2.2
  rw [e] at this
  simp [List.isPrefixOf] at this

theorem FileSystem.RemoveAll_removable (fs : FileSystem) (p : String) (h : fs.Removable p) :
    (fs.RemoveAll p).1 =
      { fs with
          dirs := fs.dirs.filter (fun k => !((fs.resolve p).isPrefixOf k)),
          files := fs.files.filter (fun f => !((fs.resolve p).isPrefixOf f.1)) } := by
  obtain ⟨h1, h2, h3, _⟩ := h
  have h5 : fs.resolve p ≠ [] := FileSystem.Removable.ne_nil ⟨h1, h2, h3, ‹_›⟩
  simp [FileSystem.RemoveAll, h1, h2, h3, h5]

theorem FileSystem.RemoveAll_clear (fs : FileSystem) (p : String) (h : fs.Removable p) :
    (fs.RemoveAll p).1.Clear (fs.resolve p) := by
  rw [FileSystem.RemoveAll_removable fs p h]
  constructor
  · intro d hd
    simpa using (List.mem_filter.1 hd).2
  · intro f hf
    simpa using (List.mem_filter.1 hf).2

theorem FileSystem.MkdirAll_spec {fs fs1 : FileSystem} {p : String}
    (h : fs.MkdirAll p = .ok fs1) :
    fs1.files = fs.files ∧ fs1.inodes = fs.inodes ∧ fs1.cwd = fs.cwd ∧
      ∀ k, k ∈ fs1.dirs ↔ k ∈ fs.dirs ∨ (k <+: fs.resolve p ∧ k ≠ []) := by
  unfold FileSystem.MkdirAll at h
  split at h
  · exact absurd h (by simp)
  · split at h
    · exact absurd h (by simp)
    · obtain ⟨h1, h2, h3, h4⟩ := FileSystem.mkdirWalk_spec _ _ _ _ h
      refine ⟨h1, h2, h3, fun k => ?_⟩
      rw [h4]
      constructor
      · rintro (hk | ⟨q, hq, hne, rfl⟩)
        · exact Or.inl hk
        · exact Or.inr ⟨by simpa using hq, by simpa using hne⟩
      · rintro (hk | ⟨hq, hne⟩)
        · exact Or.inl hk
        · exact Or.inr ⟨k, hq, hne, by simp⟩

theorem FileSystem.Stat_dir {fs : FileSystem} {p : String} (h : fs.Stat p = .dir) :
    p.data ≠ [] ∧ ∀ q, q <+: fs.resolve p → q ≠ [] → q ∈ fs.dirs := by
  unfold FileSystem.Stat at h
  split at h
  · exact absurd h (by simp)
  · rename_i hp
    exact ⟨hp, (fs.status_dir_iff _).1 h⟩

theorem FileSystem.ReadDir_ok {fs : FileSystem} {p : String} {es : List DirEntry}
    (h : fs.ReadDir p = .ok es) : fs.Stat p = .dir := by
  unfold FileSystem.ReadDir at h
  split at h
  · assumption
  · exact absurd h (by simp)
  · exact absurd h (by simp)

theorem FileSystem.OpenFile_spec {fs fs1 : FileSystem} {p : String} {f : OsFile}
    (h : fs.OpenFile p = .ok (f, fs1)) :
    f.name = p ∧ f.closed = false ∧ f.ino < fs1.inodes.length ∧ fs1.cwd = fs.cwd ∧
      fs1.dirs = fs.dirs := by
  unfold FileSystem.OpenFile at h
  split at h
  · exact absurd h (by simp)
  · exact absurd h (by simp)
  · split at h
    · simp only [Except.ok.injEq, Prod.mk.injEq] at h
      obtain ⟨h1, h2⟩ := h
      subst h1 h2
      exact ⟨rfl, rfl, ‹_›, rfl, rfl⟩
    · exact absurd h (by simp)
  · split at h
    · simp only [Except.ok.injEq, Prod.mk.injEq] at h
      obtain ⟨h1, h2⟩ := h
      subst h1 h2
      exact ⟨rfl, rfl, by simp, rfl, rfl⟩
    · exact absurd h (by simp)

/-- What a successful `NewLocalFileStorage` leaves: a store for the table whose active file
is open, the table directory with all its parents, and every directory there was. -/
theorem NewLocalFileStorage_ok {fs fs1 : FileSystem} {rootPath schema table : String}
    {st : fileStorage} (h : NewLocalFileStorage fs rootPath schema table = .ok (st, fs1)) :
    (st.rootPath = rootPath ∧ st.schema = schema ∧ st.tableName = table) ∧
    st.Usable fs1 ∧ fs1.cwd = fs.cwd ∧ (∀ k ∈ fs.dirs, k ∈ fs1.dirs) ∧
    (∀ q, q <+: fs.resolve (pathJoin [rootPath, schema, table]) → q ≠ [] → q ∈ fs1.dirs) := by
  unfold NewLocalFileStorage at h
  simp only at h
  generalize hmade : (match fs.Stat (pathJoin [rootPath, schema, table]) with
    | PathStatus.notExist =>
      match fs.MkdirAll (pathJoin [rootPath, schema, table]) with
      | Except.error e => Except.error (Panic.error e)
      | Except.ok fs1 => Except.ok fs1
    | _ => (Except.ok fs : Except Panic FileSystem)) = made at h
  cases made with
  | error e => exact absurd h (by simp)
  | ok fsa =>
    have hfsa : fsa.cwd = fs.cwd ∧ ∀ k ∈ fs.dirs, k ∈ fsa.dirs := by
      split at hmade
      · split at hmade
        · exact absurd hmade (by simp)
        · rename_i fsm hmk
          simp only [Except.ok.injEq] at hmade
          subst hmade
          obtain ⟨_, _, h3, h4⟩ := FileSystem.MkdirAll_spec hmk
          exact ⟨h3, fun k hk => (h4 k).2 (Or.inl hk)⟩
      · simp only [Except.ok.injEq] at hmade
        subst hmade
        exact ⟨rfl, fun k hk => hk⟩
    simp only at h
    split at h
    · exact absurd h (by simp)
    · rename_i entries hrd
      split at h
      · exact absurd h (by simp)
      · rename_i activeFile fs2 hopen
        simp only [Except.ok.injEq, Prod.mk.injEq] at h
        obtain ⟨h1, h2⟩ := h
        subst h1 h2
        obtain ⟨_, o2, o3, o4, o5⟩ := FileSystem.OpenFile_spec hopen
        have hd := (FileSystem.Stat_dir (FileSystem.ReadDir_ok hrd)).2
        rw [FileSystem.resolve_congr hfsa.1] at hd
        refine ⟨⟨rfl, rfl, rfl⟩, ⟨o2, o3⟩, by rw [o4, hfsa.1], ?_, ?_⟩
        · intro k hk
          rw [o5]
          exact hfsa.2 k hk
        · intro q hq hne
          rw [o5]
          exact hd q hq hne

theorem FileSystem.walk_congr {fs fs1 : FileSystem} (hd : fs1.dirs = fs.dirs)
    (hf : fs1.files = fs.files) (rest : List String) :
    ∀ pre, fs1.walk pre rest = fs.walk pre rest := by
  induction rest with
  | nil => intro pre; rfl
  | cons c cs ih =>
    intro pre
    rw [FileSystem.walk, FileSystem.walk, hd, hf, ih]

theorem FileSystem.Stat_congr {fs fs1 : FileSystem} (hc : fs1.cwd = fs.cwd)
    (hd : fs1.dirs = fs.dirs) (hf : fs1.files = fs.files) (p : String) :
    fs1.Stat p = fs.Stat p := by
  simp only [FileSystem.Stat, FileSystem.status, FileSystem.resolve_congr hc,
    FileSystem.walk_congr hd hf]

theorem childName_some {place key : List String} {n : String}
    (h : childName place key = some n) : key = place ++ [n] := by
  unfold childName at h
  split at h
  · rename_i hk
    have := List.dropLast_append_getLast? n (by simpa using h)
    rw [hk.2] at this
    exact this.symm
  · exact absurd h (by simp)

theorem isPrefixOf_append_self (place more : List String) :
    place.isPrefixOf (place ++ more) = true := by
  rw [List.isPrefixOf_iff_prefix]
  exact List.prefix_append _ _

theorem not_prefix_of_longer {place q : List String} {n : String} (hq : q <+: place) :
    q ≠ place ++ [n] := by
  intro e
  have := hq.length_le
  rw [e] at this
  simp at this

theorem FileSystem.Stat_set_inodes (fs : FileSystem) (l : List Bytes) (p : String) :
    FileSystem.Stat { fs with inodes := l } p = fs.Stat p :=
  @FileSystem.Stat_congr fs { fs with inodes := l } rfl rfl rfl p

theorem FileSystem.pathExists_set_inodes (fs : FileSystem) (l : List Bytes) (p : String) :
    FileSystem.pathExists { fs with inodes := l } p = fs.pathExists p := by
  simp only [FileSystem.pathExists, FileSystem.Stat_set_inodes]

/-- In a file system with nothing at or below the table directory, where no regular file is
on the way to it and the working directory exists, `NewLocalFileStorage` makes the directory
and the segment numbered zero, empty, as the active file. -/
theorem NewLocalFileStorage_of_clear (fs : FileSystem) (rootPath schema table : String)
    (hdata : (pathJoin [rootPath, schema, table]).data ≠ [])
    (hne : fs.resolve (pathJoin [rootPath, schema, table]) ≠ [])
    (hclear : fs.Clear (fs.resolve (pathJoin [rootPath, schema, table])))
    (hanc : ∀ q, q <+: fs.resolve (pathJoin [rootPath, schema, table]) → q ≠ [] →
      q ≠ fs.resolve (pathJoin [rootPath, schema, table]) →
      q ∈ fs.dirs ∨ fs.files.lookup q = none)
    (hcwd : fs.status fs.cwd = .dir) :
    ∃ fs2, NewLocalFileStorage fs rootPath schema table
        = .ok (⟨⟨pathJoin [rootPath, schema, table] ++ "/" ++ segmentFileName 0,
              fs.inodes.length, false⟩, [], rootPath, schema, table, 1024 * 1024⟩, fs2) ∧
      fs2.inodes = fs.inodes ++ [[]] ∧ fs2.cwd = fs.cwd ∧
      fs2.Stat (pathJoin [rootPath, schema, table]) = .dir ∧
      fs2.Stat (pathJoin [rootPath, schema, table] ++ "/" ++ segmentFileName 0)
        = .file fs.inodes.length := by
  generalize hd : pathJoin [rootPath, schema, table] = dir at hdata hne hclear hanc ⊢
  generalize hD : fs.resolve dir = place at hne hclear hanc
  -- nothing is at the place
  have hself : place.isPrefixOf place = true :=
    List.isPrefixOf_iff_prefix.2 (List.prefix_refl _)
  have hnd : place ∉ fs.dirs := fun hm => by
    have := hclear.1 _ hm
    rw [hself] at this
    exact absurd this (by simp)
  have hnf : ∀ more, fs.files.lookup (place ++ more) = none := fun more => by
    apply lookup_none_of_forall_ne
    intro f hf e
    have := hclear.2 f hf
    rw [e, isPrefixOf_append_self] at this
    exact absurd this (by simp)
  have hall : ∀ q, q <+: place → q ≠ [] → q ∈ fs.dirs ∨ fs.files.lookup q = none := by
    intro q hq hqn
    by_cases e : q = place
    · rw [e]
      have := hnf []
      rw [List.append_nil] at this
      exact Or.inr this
    · exact hanc q hq hqn e
  have hstat : fs.Stat dir = .notExist := by
    simp only [FileSystem.Stat, hdata, if_false, hD, FileSystem.status]
    exact fs.walk_notExist place [] hne (by simp [hnd]) (by simpa using hall)
  -- the directory is made
  obtain ⟨fsm, hmw⟩ := FileSystem.mkdirWalk_ok place fs [] (by simpa using hall)
  have hmk : fs.MkdirAll dir = .ok fsm := by
    simp only [FileSystem.MkdirAll, hdata, if_false, hcwd, ne_eq, not_true_eq_false, and_false,
      hD, hmw]
  obtain ⟨m1, m2, m3, m4⟩ := FileSystem.MkdirAll_spec hmk
  rw [hD] at m4
  have hDm : fsm.resolve dir = place := by rw [FileSystem.resolve_congr m3, hD]
  have hstatm : fsm.status place = .dir := by
    rw [FileSystem.status_dir_iff]
    intro q hq hqn
    exact (m4 q).2 (Or.inr ⟨hq, hqn⟩)
  have hStatm : fsm.Stat dir = .dir := by
    simp only [FileSystem.Stat, hdata, if_false, hDm, hstatm]
  -- it is empty
  have hnodirs : fsm.dirs.filterMap (childName place) = [] := by
    rw [List.filterMap_eq_nil_iff]
    intro k hk
    cases hc : childName place k with
    | none => rfl
    | some n =>
      have hkeq := childName_some hc
      rcases (m4 k).1 hk with h | ⟨h, _⟩
      · have := hclear.1 k h
        rw [hkeq, isPrefixOf_append_self] at this
        exact absurd this (by simp)
      · exact absurd hkeq (not_prefix_of_longer h)
  have hnofiles : fsm.files.filterMap (fun f => childName place f.1) = [] := by
    rw [List.filterMap_eq_nil_iff, m1]
    intro f hf
    cases hc : childName place f.1 with
    | none => rfl
    | some n =>
      have := hclear.2 f hf
      rw [childName_some hc, isPrefixOf_append_self] at this
      exact absurd this (by simp)
  have hrd : fsm.ReadDir dir = .ok [] := by
    simp only [FileSystem.ReadDir, hStatm, hDm, hnodirs, hnofiles, List.append_nil]
    rfl
  -- the segment numbered zero is created
  have hres : fsm.resolve (dir ++ "/" ++ segmentFileName 0) = place ++ [segmentFileName 0] := by
    rw [FileSystem.resolve_child fsm dir _ hdata (by decide) (by decide) (by decide) (by decide),
      hDm]
  have hseg : place ++ [segmentFileName 0] ∉ fsm.dirs := fun hm => by
    rcases (m4 _).1 hm with h | ⟨h, _⟩
    · have := hclear.1 _ h
      rw [isPrefixOf_append_self] at this
      exact absurd this (by simp)
    · exact absurd rfl (not_prefix_of_longer h)
  have hsdata : (dir ++ "/" ++ segmentFileName 0).data ≠ [] := by
    simp [String.data_append]
  have hwalk : ∀ fsx : FileSystem, fsx.dirs = fsm.dirs →
      fsx.status (place ++ [segmentFileName 0])
        = match fsx.files.lookup (place ++ [segmentFileName 0]) with
          | some ino => .file ino
          | none => .notExist := by
    intro fsx hdx
    have hsx : fsx.walk [] place = .dir := by
      have := (fsm.walk_dir_iff place []).1 hstatm
      rw [FileSystem.walk_dir_iff, hdx]
      exact this
    have hsegx : place ++ [segmentFileName 0] ∉ fsx.dirs := by rw [hdx]; exact hseg
    rw [FileSystem.status, FileSystem.walk_append _ _ _ _ hsx, FileSystem.walk]
    simp only [List.nil_append, hsegx, if_false]
    split <;> simp_all
  have hstats : fsm.Stat (dir ++ "/" ++ segmentFileName 0) = .notExist := by
    simp only [FileSystem.Stat, hsdata, if_false, hres, hwalk fsm rfl, m1, hnf]
  have hopen : fsm.OpenFile (dir ++ "/" ++ segmentFileName 0)
      = .ok (⟨dir ++ "/" ++ segmentFileName 0, fs.inodes.length, false⟩,
          { fsm with files := (place ++ [segmentFileName 0], fs.inodes.length) :: fsm.files,
                     inodes := fsm.inodes ++ [[]] }) := by
    simp only [FileSystem.OpenFile, hstats, hres, List.dropLast_concat, hstatm, m2]
    simp [hsdata]
  have hStat2 : ∀ fsx : FileSystem, fsx.cwd = fsm.cwd → fsx.dirs = fsm.dirs →
      fsx.Stat dir = .dir := by
    intro fsx hcx hdx
    have hrx : fsx.resolve dir = place := by rw [FileSystem.resolve_congr hcx, hDm]
    simp only [FileSystem.Stat, hdata, if_false, hrx]
    rw [FileSystem.status_dir_iff, hdx]
    exact (fsm.status_dir_iff place).1 hstatm
  refine ⟨{ fsm with files := (place ++ [segmentFileName 0], fs.inodes.length) :: fsm.files,
                     inodes := fsm.inodes ++ [[]] }, ?_, ?_, m3, hStat2 _ rfl rfl, ?_⟩
  · simp only [NewLocalFileStorage, hd, hstat, hmk, hrd, List.filter_nil, List.map_nil,
      sortStrings, List.length_nil, if_true, hopen]
  · simp [m2]
  · have hrx : FileSystem.resolve
        { fsm with files := (place ++ [segmentFileName 0], fs.inodes.length) :: fsm.files,
                   inodes := fsm.inodes ++ [[]] } (dir ++ "/" ++ segmentFileName 0)
        = place ++ [segmentFileName 0] := by
      exact (@FileSystem.resolve_congr fsm _ rfl _).trans hres
    simp only [FileSystem.Stat, hsdata, if_false, hrx]
    rw [hwalk { fsm with files := (place ++ [segmentFileName 0], fs.inodes.length) :: fsm.files,
                         inodes := fsm.inodes ++ [[]] } rfl]
    simp [List.lookup]

theorem FileSystem.NoFileAbove.lookup {fs : FileSystem} {place q : List String}
    (h : fs.NoFileAbove place) (hq : q <+: place) (hne : q ≠ place) :
    fs.files.lookup q = none := by
  apply lookup_none_of_forall_ne
  intro f hf e
  have := h f hf (by rw [e]; exact List.isPrefixOf_iff_prefix.2 hq)
  exact hne (e ▸ this)

/-- What resolving the store of a table leaves around its directory. -/
theorem StorageManager.resolveStorage_env {sm sm1 : StorageManager} {fs fs1 : FileSystem}
    {sid : Session} {st : fileStorage}
    (hres : sm.resolveStorage fs sid = .ok (st, sm1, fs1))
    (hheld : ∀ st0, sm.lookup sid = some st0 →
      pathJoin [st0.rootPath, st0.schema, st0.tableName] = sm.tableDir sid ∧ st0.Usable fs)
    (hanc : fs.NoFileAbove (fs.resolve (sm.tableDir sid))) :
    pathJoin [st.rootPath, st.schema, st.tableName] = sm.tableDir sid ∧ st.Usable fs1 ∧
    fs1.cwd = fs.cwd ∧ (∀ k ∈ fs.dirs, k ∈ fs1.dirs) ∧
    (∀ q, q <+: fs.resolve (sm.tableDir sid) → q ≠ [] → q ≠ fs.resolve (sm.tableDir sid) →
      q ∈ fs1.dirs ∨ fs1.files.lookup q = none) := by
  cases hl : sm.lookup sid with
  | some st0 =>
    rw [StorageManager.resolveStorage_of_lookup fs hl] at hres
    simp only [Except.ok.injEq, Prod.mk.injEq] at hres
    obtain ⟨h1, _, h3⟩ := hres
    subst h1 h3
    exact ⟨(hheld _ hl).1, (hheld _ hl).2, rfl, fun k hk => hk,
      fun q hq _ hne => Or.inr (hanc.lookup hq hne)⟩
  | none =>
    have hlook := StorageManager.lookup_of_resolveStorage hres
    unfold StorageManager.resolveStorage StorageManager.initializeStorage at hres
    simp only [hl, Option.isSome_none, Bool.false_eq_true, not_false_eq_true, if_true,
      if_false] at hres
    split at hres
    · exact absurd hres (by simp)
    · rename_i sm2 fs2 hinit
      split at hinit
      · split at hinit
        · exact absurd hinit (by simp)
        · rename_i storage fs3 hnew
          simp only [Except.ok.injEq, Prod.mk.injEq] at hinit
          have hsm : sm1 = sm.store sid storage ∧ fs1 = fs3 := by
            split at hres
            · exact absurd hres (by simp)
            · simp only [Except.ok.injEq, Prod.mk.injEq] at hres
              exact ⟨by rw [← hres.2.1, ← hinit.1], by rw [← hres.2.2, ← hinit.2]⟩
          rw [hsm.1, StorageManager.lookup_store] at hlook
          simp only [Option.some.injEq] at hlook
          obtain ⟨⟨h1, h2, h3⟩, hu, hc, hdirs, hpre⟩ := NewLocalFileStorage_ok hnew
          rw [hsm.2, ← hlook, h1, h2, h3]
          exact ⟨rfl, hlook ▸ hu, hc, hdirs, fun q hq hqn _ => Or.inl (hpre q hq hqn)⟩
      · exact absurd hinit (by simp)

theorem FileSystem.Removable.congr {fs fs1 : FileSystem} {p : String} (h : fs.Removable p)
    (hc : fs1.cwd = fs.cwd) : fs1.Removable p := by
  obtain ⟨h1, h2, h3, h4⟩ := h
  exact ⟨h1, h2, h3, by rw [FileSystem.resolve_congr hc, hc]; exact h4⟩

/-- The state after the removal of a removable directory `p` from a file system in which no
regular file is on the way to it and the working directory exists. -/
theorem FileSystem.RemoveAll_env (fs : FileSystem) (p : String) (h : fs.Removable p)
    (hanc : ∀ q, q <+: fs.resolve p → q ≠ [] → q ≠ fs.resolve p →
      q ∈ fs.dirs ∨ fs.files.lookup q = none)
    (hcwd : fs.status fs.cwd = .dir) :
    (fs.RemoveAll p).1.cwd = fs.cwd ∧ (fs.RemoveAll p).1.inodes = fs.inodes ∧
    (fs.RemoveAll p).1.Clear (fs.resolve p) ∧
    (∀ q, q <+: fs.resolve p → q ≠ [] → q ≠ fs.resolve p →
      q ∈ (fs.RemoveAll p).1.dirs ∨ (fs.RemoveAll p).1.files.lookup q = none) ∧
    (fs.RemoveAll p).1.status fs.cwd = .dir ∧
    (fs.RemoveAll p).1.pathExists p = false := by
  have hclear := FileSystem.RemoveAll_clear fs p h
  have hne := h.ne_nil
  have heq := FileSystem.RemoveAll_removable fs p h
  have hanc1 : ∀ q, q <+: fs.resolve p → q ≠ [] → q ≠ fs.resolve p →
      q ∈ (fs.RemoveAll p).1.dirs ∨ (fs.RemoveAll p).1.files.lookup q = none := by
    intro q hq hqn hqne
    rw [heq]
    rcases hanc q hq hqn hqne with hm | hn
    · left
      refine List.mem_filter.2 ⟨hm, ?_⟩
      simp only [Bool.not_eq_true', ← Bool.not_eq_true, List.isPrefixOf_iff_prefix]
      intro hpq
      exact hqne (hq.eq_of_length (Nat.le_antisymm hq.length_le hpq.length_le))
    · right
      exact lookup_filter_none _ _ _ hn
  have hcwd1 : (fs.RemoveAll p).1.status fs.cwd = .dir := by
    rw [FileSystem.status_dir_iff] at hcwd ⊢
    intro q hq hqn
    rw [heq]
    refine List.mem_filter.2 ⟨hcwd q hq hqn, ?_⟩
    simp only [Bool.not_eq_true', ← Bool.not_eq_true, List.isPrefixOf_iff_prefix]
    intro hpq
    have := List.isPrefixOf_iff_prefix.2 (hpq.trans hq)
    rw [h.2.2.2] at this
    exact absurd this (by simp)
  have hc : (fs.RemoveAll p).1.cwd = fs.cwd := by rw [heq]
  refine ⟨hc, by rw [heq], hclear, hanc1, hcwd1, ?_⟩
  have hself : (fs.resolve p).isPrefixOf (fs.resolve p) = true :=
    List.isPrefixOf_iff_prefix.2 (List.prefix_refl _)
  have hnd : fs.resolve p ∉ (fs.RemoveAll p).1.dirs := fun hm => by
    have := hclear.1 _ hm
    rw [hself] at this
    exact absurd this (by simp)
  have hnf : (fs.RemoveAll p).1.files.lookup (fs.resolve p) = none := by
    apply lookup_none_of_forall_ne
    intro f hf e
    have := hclear.2 f hf
    rw [e, hself] at this
    exact absurd this (by simp)
  have hstat : (fs.RemoveAll p).1.Stat p = .notExist := by
    simp only [FileSystem.Stat, h.1, if_false, FileSystem.resolve_congr hc, FileSystem.status]
    refine FileSystem.walk_notExist _ _ [] hne (by simpa using hnd) ?_
    intro q hq hqn
    by_cases e : q = fs.resolve p
    · rw [e]; exact Or.inr (by simpa using hnf)
    · simpa using hanc1 q hq hqn e
  simp [FileSystem.pathExists, hstat]

/-- C4 (amended). For a table directory that can be removed (not empty, not ending in `.` or
`..`, neither the working directory nor one of its ancestors), with no regular file on the way
to it: after `RemoveAllData(s)` the table directory no longer exists. A subsequent
`Write(s, r)` on a manager that holds no store for `s`, such as a newly constructed one with
the same root, recreates the directory and an active segment numbered zero in it that
contains exactly the packed bytes of `r`. On the same manager the store stays in the map with
its file open: a write that fits is appended to that file at the old size, and the directory
is not recreated. -/
theorem remove_all_then_fresh_write (sm sm1 smNew : StorageManager) (fs fs1 : FileSystem)
    (session : Session) (r : Record)
    (hrm : sm.RemoveAllData fs session = .ok (sm1, fs1))
    (hheld : ∀ st0, sm.lookup session = some st0 →
      pathJoin [st0.rootPath, st0.schema, st0.tableName] = sm.tableDir session ∧ st0.Usable fs)
    (hdir : fs.Removable (sm.tableDir session))
    (hanc : fs.NoFileAbove (fs.resolve (sm.tableDir session)))
    (hcwd : fs.status fs.cwd = .dir)
    (hnew : smNew.lookup session = none ∧ smNew.rootPath = sm.rootPath ∧ smNew.typ = Local_File)
    (hfit : r.Pack.length ≤ 1048576) :
    fs1.pathExists (sm.tableDir session) = false ∧
    (∃ pos sm2 fs2 st, smNew.Write fs1 session r = .ok (pos, sm2, fs2) ∧
      fs2.Stat (sm.tableDir session) = .dir ∧
      sm2.lookup session = some st ∧
      st.activeFile.name = sm.tableDir session ++ "/" ++ segmentFileName 0 ∧
      fs2.Stat st.activeFile.name = .file st.activeFile.ino ∧
      st.contents fs2 = r.Pack) ∧
    (∃ st, sm1.lookup session = some st ∧ st.Usable fs1 ∧
      ((st.Size fs1).1 + (r.Pack.length : Int) ≤ st.maxSize →
        ∃ sm2 fs2, sm1.Write fs1 session r
            = .ok (⟨(st.Size fs1).1, (r.Pack.length : Int)⟩, sm2, fs2) ∧
          sm2.lookup session = some st ∧
          st.contents fs2 = st.contents fs1 ++ r.Pack ∧
          fs2.pathExists (sm.tableDir session) = false)) := by
  obtain ⟨hnl, hnr, hnt⟩ := hnew
  -- the store that was resolved, and the state before the removal
  unfold StorageManager.RemoveAllData at hrm
  split at hrm
  · exact absurd hrm (by simp)
  rename_i storage sm2 fs0 hres
  simp only [Except.ok.injEq, Prod.mk.injEq] at hrm
  obtain ⟨hsm, hfs⟩ := hrm
  subst hsm
  obtain ⟨hown, husable0, hc0, hdirs0, hanc0⟩ := StorageManager.resolveStorage_env hres hheld hanc
  have hD0 : fs0.resolve (sm.tableDir session) = fs.resolve (sm.tableDir session) :=
    FileSystem.resolve_congr hc0 _
  have hcwd0 : fs0.status fs0.cwd = .dir := by
    rw [hc0]
    rw [FileSystem.status_dir_iff] at hcwd ⊢
    exact fun q hq hqn => hdirs0 q (hcwd q hq hqn)
  -- the state after the removal
  have hfs1 : fs1 = (fs0.RemoveAll (sm.tableDir session)).1 := by
    rw [← hfs, fileStorage.RemoveAll, hown]
  obtain ⟨e1, e2, e3, e4, e5, e6⟩ := FileSystem.RemoveAll_env fs0 (sm.tableDir session)
    (hdir.congr hc0) (by rw [hD0]; exact hanc0) hcwd0
  rw [← hfs1] at e1 e2 e3 e4 e5 e6
  have hD1 : fs1.resolve (sm.tableDir session) = fs0.resolve (sm.tableDir session) :=
    FileSystem.resolve_congr e1 _
  have husable1 : storage.Usable fs1 := ⟨husable0.1, by rw [e2]; exact husable0.2⟩
  refine ⟨e6, ?_, storage, StorageManager.lookup_of_resolveStorage hres, husable1, ?_⟩
  · -- a manager without a store for the session
    have hdirNew : pathJoin [smNew.rootPath, session.Schema, session.Table]
        = sm.tableDir session := by rw [hnr]; rfl
    obtain ⟨fs2, hnls, i1, i2, i3, i4⟩ := NewLocalFileStorage_of_clear fs1 smNew.rootPath
      session.Schema session.Table (by rw [hdirNew]; exact hdir.1)
      (by rw [hdirNew, hD1]; exact (hdir.congr hc0).ne_nil)
      (by rw [hdirNew, hD1]; exact e3)
      (by rw [hdirNew, hD1]; exact e4)
      (by rw [e1, ← hc0] at *; rw [e1]; exact e5)
    rw [hdirNew] at hnls i3 i4
    have hres2 : smNew.resolveStorage fs1 session = .ok
        (⟨⟨sm.tableDir session ++ "/" ++ segmentFileName 0, fs1.inodes.length, false⟩, [],
            smNew.rootPath, session.Schema, session.Table, 1024 * 1024⟩,
          smNew.store session ⟨⟨sm.tableDir session ++ "/" ++ segmentFileName 0,
            fs1.inodes.length, false⟩, [], smNew.rootPath, session.Schema, session.Table,
            1024 * 1024⟩, fs2) := by
      simp only [StorageManager.resolveStorage, StorageManager.initializeStorage, hnl, hnt,
        Option.isSome_none, Bool.false_eq_true, not_false_eq_true, if_true, if_false, hnls,
        StorageManager.lookup_store]
    have husable2 : fileStorage.Usable
        ⟨⟨sm.tableDir session ++ "/" ++ segmentFileName 0, fs1.inodes.length, false⟩, [],
            smNew.rootPath, session.Schema, session.Table, 1024 * 1024⟩ fs2 :=
      ⟨rfl, by rw [i1]; simp⟩
    have hcont : fileStorage.contents
        ⟨⟨sm.tableDir session ++ "/" ++ segmentFileName 0, fs1.inodes.length, false⟩, [],
            smNew.rootPath, session.Schema, session.Table, 1024 * 1024⟩ fs2 = [] := by
      simp [fileStorage.contents, i1]
    have hw := StorageManager.Write_position r hres2 husable2
      (by rw [hcont]; simp only [List.length_nil, Nat.cast_zero, zero_add]; norm_num; omega)
    have hset := fileStorage.usable_set husable2 ([] ++ r.Pack)
    rw [hcont] at hw
    refine ⟨_, _, _, _, hw, ?_, StorageManager.lookup_store _ _ _, rfl, ?_, ?_⟩
    · exact (FileSystem.Stat_set_inodes _ _ _).trans i3
    · exact (FileSystem.Stat_set_inodes _ _ _).trans i4
    · simpa using hset.2
  · -- the same manager
    intro hfit2
    rw [fileStorage.Size_of_usable husable1] at hfit2 ⊢
    have hw := StorageManager.Write_position r
      (StorageManager.resolveStorage_of_lookup fs1 (StorageManager.lookup_of_resolveStorage hres))
      husable1 hfit2
    have hset := fileStorage.usable_set husable1 (storage.contents fs1 ++ r.Pack)
    refine ⟨_, _, hw, StorageManager.lookup_store _ _ _, hset.2, ?_⟩
    rw [FileSystem.pathExists_set_inodes]
    exact e6

/-- C4 (counterexample). On a new manager, `RemoveAllData` for the table `s.t` leaves the store
in the manager's map and removes the directory; the following `Write` on the same manager
succeeds on the retained store, and afterwards the table directory still does not exist and
no file has a name: the directory and its active segment were not recreated. -/
theorem remove_all_same_manager_counterexample :
    demoManager.RemoveAllData emptyFs demoSession
      = .ok (demoManager.store demoSession demoStore, removedFs) ∧
    removedFs.pathExists (demoManager.tableDir demoSession) = false ∧
    (demoManager.store demoSession demoStore).Write removedFs demoSession demoRecord
      = .ok (⟨0, 12⟩, demoManager.store demoSession demoStore,
          { removedFs with inodes := [demoRecord.Pack] }) ∧
    FileSystem.pathExists { removedFs with inodes := [demoRecord.Pack] }
      (demoManager.tableDir demoSession) = false ∧
    FileSystem.files { removedFs with inodes := [demoRecord.Pack] } = [] := by
  decide

/-- Witness of C4 at the table `s.t`: removal on a new manager, then a write of the record
"hi" on another new manager, and on the same one. -/
theorem remove_all_then_fresh_write_witness :
    removedFs.pathExists (demoManager.tableDir demoSession) = false ∧
    (∃ pos sm2 fs2 st, demoManager.Write removedFs demoSession demoRecord = .ok (pos, sm2, fs2) ∧
      fs2.Stat (demoManager.tableDir demoSession) = .dir ∧
      sm2.lookup demoSession = some st ∧
      st.activeFile.name = demoManager.tableDir demoSession ++ "/" ++ segmentFileName 0 ∧
      fs2.Stat st.activeFile.name = .file st.activeFile.ino ∧
      st.contents fs2 = demoRecord.Pack) ∧
    (∃ st, (demoManager.store demoSession demoStore).lookup demoSession = some st ∧
      st.Usable removedFs ∧
      ((st.Size removedFs).1 + (demoRecord.Pack.length : Int) ≤ st.maxSize →
        ∃ sm2 fs2, (demoManager.store demoSession demoStore).Write removedFs demoSession
            demoRecord = .ok (⟨(st.Size removedFs).1, (demoRecord.Pack.length : Int)⟩, sm2, fs2) ∧
          sm2.lookup demoSession = some st ∧
          st.contents fs2 = st.contents removedFs ++ demoRecord.Pack ∧
          fs2.pathExists (demoManager.tableDir demoSession) = false)) :=
  remove_all_then_fresh_write demoManager (demoManager.store demoSession demoStore)
    demoManager emptyFs removedFs demoSession demoRecord (by decide)
    (fun st0 h0 => by
      have hnone : demoManager.lookup demoSession = none := by decide
      rw [hnone] at h0
      cases h0)
    (by decide) (by decide) (by decide) ⟨by decide, rfl, rfl⟩ (by decide)

end BytesDB
